import Mathlib

/-!
Verification model of the Findx binary credential-detection engine
(`internal/parser`: the binary PE parser) and its scan orchestrator.

Buffers and candidate strings are modelled as `List Nat` of byte values /
code points (all strings reaching the engine's matchers are ASCII, where
Go's byte-level and rune-level views coincide; Chinese literals from the
source keep their Unicode code points).  Go's `regexp` package uses
leftmost-first (Perl-style) matching; it is modelled by a backtracking
matcher over a small regex AST covering exactly the constructs used by
the source patterns (character classes, greedy counted repetition of a
class, concatenation, prioritized alternation, capture groups, anchors
and word boundaries).  Floating-point threshold comparisons
(`float64(a)/float64(b) > 0.3` etc.) are modelled exactly over the
rationals (`10*a > 3*b`), which agrees with the IEEE computation for all
string lengths arising here.
-/

namespace Findx

/-- Code points of a Lean string literal, used to transcribe the Go
string literals of the source. -/
def strCodes (s : String) : List Nat := s.data.map Char.toNat

def toLowerCode (c : Nat) : Nat := if 65 ≤ c && c ≤ 90 then c + 32 else c

def isDigitCode (c : Nat) : Bool := 48 ≤ c && c ≤ 57

def isUpperCode (c : Nat) : Bool := 65 ≤ c && c ≤ 90

def isLowerCode (c : Nat) : Bool := 97 ≤ c && c ≤ 122

def isAlphaCode (c : Nat) : Bool := isUpperCode c || isLowerCode c

def isAlnumCode (c : Nat) : Bool := isAlphaCode c || isDigitCode c

/-- Go regexp `\w` = `[0-9A-Za-z_]`. -/
def isWordCode (c : Nat) : Bool := isAlnumCode c || c == 95

/-- Go regexp `\s` = `[\t\n\f\r ]`. -/
def isSpaceCode (c : Nat) : Bool :=
  c == 9 || c == 10 || c == 12 || c == 13 || c == 32

/-- Case-insensitive comparison against a pattern character, for `(?i)`
patterns (ASCII folding, which is all that arises). -/
def ciEq (c x : Nat) : Bool := toLowerCode x == toLowerCode c

/-- Regex AST: exactly the constructs appearing in the source's patterns.
Counted repetition (`rep`) is restricted to a character class, which is
the only way the source patterns use quantifiers. -/
inductive RE where
  | eps
  | cls (p : Nat → Bool)
  | cat (a b : RE)
  | alt (a b : RE)
  | rep (p : Nat → Bool) (lo : Nat) (hi : Option Nat)
  | grp (n : Nat) (r : RE)
  | bol
  | eol
  | wordB

/-- Capture list: (group number, start, end). -/
abbrev Caps := List (Nat × Nat × Nat)

def litc (c : Nat) : RE := .cls (· == c)

def lits (cs : List Nat) : RE := cs.foldr (fun c acc => .cat (litc c) acc) .eps

def cilits (cs : List Nat) : RE := cs.foldr (fun c acc => .cat (.cls (ciEq c)) acc) .eps

/-- Length of the maximal prefix of `l` whose elements satisfy `p`. -/
def clsRun (p : Nat → Bool) : List Nat → Nat
  | [] => 0
  | c :: rest => if p c then clsRun p rest + 1 else 0

/-- End positions (greedy-first) of a counted class repetition starting
at `pos`. -/
def repEnds (p : Nat → Bool) (lo : Nat) (hi : Option Nat) (s : List Nat) (pos : Nat) :
    List Nat :=
  let run := clsRun p (s.drop pos)
  let m := match hi with | some h => min run h | none => run
  if m < lo then [] else (List.range (m + 1 - lo)).map (fun k => pos + (m - k))

def wordAtLeft (s : List Nat) (pos : Nat) : Bool :=
  match pos with
  | 0 => false
  | Nat.succ q => isWordCode (s.getD q 0)

def wordAtRight (s : List Nat) (pos : Nat) : Bool :=
  pos < s.length && isWordCode (s.getD pos 0)

/-- All end positions (with captures) of matches of `re` in `s` starting
at `pos`, in backtracking priority order; the head is the
leftmost-first match end, as in Go's regexp semantics. -/
def ends : RE → List Nat → Nat → List (Nat × Caps)
  | .eps, _, pos => [(pos, [])]
  | .cls p, s, pos =>
      if pos < s.length && p (s.getD pos 0) then [(pos + 1, [])] else []
  | .cat a b, s, pos =>
      (ends a s pos).flatMap (fun ec =>
        (ends b s ec.1).map (fun ec2 => (ec2.1, ec.2 ++ ec2.2)))
  | .alt a b, s, pos => ends a s pos ++ ends b s pos
  | .rep p lo hi, s, pos => (repEnds p lo hi s pos).map (fun e => (e, []))
  | .grp n r, s, pos => (ends r s pos).map (fun ec => (ec.1, (n, pos, ec.1) :: ec.2))
  | .bol, _, pos => if pos == 0 then [(pos, [])] else []
  | .eol, s, pos => if pos == s.length then [(pos, [])] else []
  | .wordB, s, pos => if wordAtLeft s pos != wordAtRight s pos then [(pos, [])] else []

/-- Scan loop with explicit fuel (structural recursion so that the
kernel can evaluate it). -/
def scanFromAux (re : RE) (s : List Nat) : Nat → Nat → Option (Nat × Nat × Caps)
  | 0, _ => none
  | Nat.succ fuel, pos =>
    match ends re s pos with
    | ec :: _ => some (pos, ec.1, ec.2)
    | [] => if pos < s.length then scanFromAux re s fuel (pos + 1) else none

/-- First match of `re` in `s` at or after `pos` (leftmost-first):
returns (start, end, captures).  Callers only use `pos ≤ s.length`, for
which the fuel suffices exactly. -/
def scanFrom (re : RE) (s : List Nat) (pos : Nat) : Option (Nat × Nat × Caps) :=
  scanFromAux re s (s.length + 1 - pos) pos

def findAllFrom (re : RE) (s : List Nat) : Nat → Nat → List (Nat × Nat × Caps)
  | 0, _ => []
  | Nat.succ fuel, pos =>
    if pos > s.length then []
    else
      match scanFrom re s pos with
      | none => []
      | some (st, e, c) =>
          (st, e, c) :: findAllFrom re s fuel (if st < e then e else e + 1)

/-- Model of `FindAllStringSubmatch` / `FindAllIndex` (`-1` limit):
successive non-overlapping leftmost-first matches. -/
def findAll (re : RE) (s : List Nat) : List (Nat × Nat × Caps) :=
  findAllFrom re s (s.length + 1) 0

/-- Model of `MatchString`: some match exists. -/
def reMatches (re : RE) (s : List Nat) : Bool := (scanFrom re s 0).isSome

/-- Number of capture groups of a pattern (a submatch slice of Go's
`FindAllStringSubmatch` has length `groupCount + 1`). -/
def RE.groupCount : RE → Nat
  | .cat a b => a.groupCount + b.groupCount
  | .alt a b => a.groupCount + b.groupCount
  | .grp _ r => r.groupCount + 1
  | _ => 0

def capLookup (caps : Caps) (n : Nat) : Option (Nat × Nat) :=
  match caps with
  | [] => none
  | (m, st, en) :: rest => if m == n then some (st, en) else capLookup rest n

def sliceOf (s : List Nat) (st en : Nat) : List Nat := (s.drop st).take (en - st)

/-- Submatch text of group `n` (empty when the group is absent, as Go
reports `""`). -/
def capStr (s : List Nat) (caps : Caps) (n : Nat) : List Nat :=
  match capLookup caps n with
  | some (st, en) => sliceOf s st en
  | none => []

/-- Model of `strings.Index` on byte lists: index of the first occurrence of
`pat` in `hay`, if any. -/
def subIndex (hay pat : List Nat) : Option Nat :=
  match hay with
  | [] => if pat.isEmpty then some 0 else none
  | _ :: t => if pat.isPrefixOf hay then some 0 else (subIndex t pat).map (· + 1)

/-- Model of `strings.Contains`. -/
def listContains (hay pat : List Nat) : Bool := (subIndex hay pat).isSome

def cats (rs : List RE) : RE := rs.foldr RE.cat .eps

def isQuoteCode (c : Nat) : Bool := c == 34 || c == 39

/-- Class `[^"'\s;&]` of the password / username rules. -/
def passValCode (c : Nat) : Bool :=
  !(c == 34 || c == 39 || isSpaceCode c || c == 59 || c == 38)

/-- Class `[^\s"']` of the jdbc / ldap rules. -/
def urlTailCode (c : Nat) : Bool := !(isSpaceCode c || c == 34 || c == 39)

/-- Class `[A-Za-z0-9+/]` (base64 alphabet without padding). -/
def b64Code (c : Nat) : Bool := isAlnumCode c || c == 43 || c == 47

/-- Class `[\w\-._~+/]` of the Bearer rule. -/
def bearerCode (c : Nat) : Bool :=
  isWordCode c || c == 45 || c == 46 || c == 126 || c == 43 || c == 47

/-- Class `[a-zA-Z0-9._%+-]` (email local part). -/
def emailLocalCode (c : Nat) : Bool :=
  isAlnumCode c || c == 46 || c == 95 || c == 37 || c == 43 || c == 45

/-- Class `[a-zA-Z0-9.-]` (email domain part). -/
def emailDomCode (c : Nat) : Bool := isAlnumCode c || c == 46 || c == 45

/-- Segment `[0-9]{1,3}\.` of the IP rule. -/
def ipSeg : RE := .cat (.rep isDigitCode 1 (some 3)) (litc 46)

/-- DetectionRule 检测规则定义. -/
structure DetectionRule where
  name : String
  pattern : RE
  description : String
  riskLevel : String

/-- initDetectionRules 初始化检测规则: the fixed ordered rule corpus,
each Go regexp transcribed into the `RE` AST. -/
def initDetectionRules : List DetectionRule :=
  [ { name := "数据库连接字符串"
      -- (?i)(ConnectionString|connstr?)\s*=\s*["']([^"']{10,200})["']
      pattern := cats
        [ .grp 1 (.alt (cilits (strCodes "connectionstring"))
            (.cat (cilits (strCodes "connst")) (.rep (ciEq 114) 0 (some 1))))
        , .rep isSpaceCode 0 none, litc 61, .rep isSpaceCode 0 none
        , .cls isQuoteCode
        , .grp 2 (.rep (fun c => !isQuoteCode c) 10 (some 200))
        , .cls isQuoteCode ]
      description := "数据库连接字符串包含认证信息"
      riskLevel := "high" }
  , { name := "JDBC连接URL"
      -- jdbc:\w+://[^\s"']+
      pattern := cats
        [ lits (strCodes "jdbc:"), .rep isWordCode 1 none
        , lits (strCodes "://"), .rep urlTailCode 1 none ]
      description := "JDBC数据库连接URL"
      riskLevel := "high" }
  , { name := "密码字段"
      -- (?i)(password|pwd)\s*=\s*["']?([^"'\s;&]{4,50})
      pattern := cats
        [ .grp 1 (.alt (cilits (strCodes "password")) (cilits (strCodes "pwd")))
        , .rep isSpaceCode 0 none, litc 61, .rep isSpaceCode 0 none
        , .rep isQuoteCode 0 (some 1)
        , .grp 2 (.rep passValCode 4 (some 50)) ]
      description := "密码字段赋值"
      riskLevel := "critical" }
  , { name := "用户名字段"
      -- (?i)(username|user|uid)\s*=\s*["']?([^"'\s;&]{3,50})
      pattern := cats
        [ .grp 1 (.alt (cilits (strCodes "username"))
            (.alt (cilits (strCodes "user")) (cilits (strCodes "uid"))))
        , .rep isSpaceCode 0 none, litc 61, .rep isSpaceCode 0 none
        , .rep isQuoteCode 0 (some 1)
        , .grp 2 (.rep passValCode 3 (some 50)) ]
      description := "用户名字段赋值"
      riskLevel := "high" }
  , { name := "API密钥"
      -- (?i)(api[_-]?key|apisecret|sk-)\s*=\s*["']?([a-zA-Z0-9]{20,60})
      pattern := cats
        [ .grp 1 (.alt
            (cats [cilits (strCodes "api"),
                   .rep (fun c => c == 95 || c == 45) 0 (some 1),
                   cilits (strCodes "key")])
            (.alt (cilits (strCodes "apisecret")) (cilits (strCodes "sk-"))))
        , .rep isSpaceCode 0 none, litc 61, .rep isSpaceCode 0 none
        , .rep isQuoteCode 0 (some 1)
        , .grp 2 (.rep isAlnumCode 20 (some 60)) ]
      description := "API密钥或访问令牌"
      riskLevel := "critical" }
  , { name := "SSH密钥"
      -- ssh-\w+\s+[A-Za-z0-9+/]{100,}
      pattern := cats
        [ lits (strCodes "ssh-"), .rep isWordCode 1 none
        , .rep isSpaceCode 1 none, .rep b64Code 100 none ]
      description := "SSH公钥或私钥"
      riskLevel := "critical" }
  , { name := "LDAP连接"
      -- ldap[s]?://[^\s"']+
      pattern := cats
        [ lits (strCodes "ldap"), .rep (· == 115) 0 (some 1)
        , lits (strCodes "://"), .rep urlTailCode 1 none ]
      description := "LDAP连接字符串"
      riskLevel := "high" }
  , { name := "MySQL连接"
      -- mysqli_connect\([^)]+\)
      pattern := cats
        [ lits (strCodes "mysqli_connect(")
        , .rep (fun c => !(c == 41)) 1 none, litc 41 ]
      description := "MySQL数据库连接"
      riskLevel := "high" }
  , { name := "中文凭据"
      -- (账号|密码|用户名)\s*[=:]\s*["']?([^"'\s]{3,50})
      pattern := cats
        [ .grp 1 (.alt (lits (strCodes "账号"))
            (.alt (lits (strCodes "密码")) (lits (strCodes "用户名"))))
        , .rep isSpaceCode 0 none, .cls (fun c => c == 61 || c == 58)
        , .rep isSpaceCode 0 none, .rep isQuoteCode 0 (some 1)
        , .grp 2 (.rep (fun c => !(c == 34 || c == 39 || isSpaceCode c)) 3 (some 50)) ]
      description := "中文账号密码信息"
      riskLevel := "high" }
  , { name := "Bearer令牌"
      -- Bearer\s+[\w\-._~+/]{20,100}
      pattern := cats
        [ lits (strCodes "Bearer"), .rep isSpaceCode 1 none
        , .rep bearerCode 20 (some 100) ]
      description := "Bearer认证令牌"
      riskLevel := "high" }
  , { name := "私钥文件"
      -- -----BEGIN (?:RSA|DSA|EC) PRIVATE KEY-----
      pattern := cats
        [ lits (strCodes "-----BEGIN ")
        , .alt (lits (strCodes "RSA")) (.alt (lits (strCodes "DSA")) (lits (strCodes "EC")))
        , lits (strCodes " PRIVATE KEY-----") ]
      description := "加密私钥文件"
      riskLevel := "critical" }
  , { name := "邮箱地址"
      -- [a-zA-Z0-9._%+-]+@[a-zA-Z0-9.-]+\.[a-zA-Z]{2,}
      pattern := cats
        [ .rep emailLocalCode 1 none, litc 64
        , .rep emailDomCode 1 none, litc 46, .rep isAlphaCode 2 none ]
      description := "邮箱地址（可能用于认证）"
      riskLevel := "medium" }
  , { name := "IP地址和端口"
      -- \b(?:[0-9]{1,3}\.){3}[0-9]{1,3}(?::\d+)?\b
      pattern := cats
        [ .wordB, ipSeg, ipSeg, ipSeg, .rep isDigitCode 1 (some 3)
        , .alt (.cat (litc 58) (.rep isDigitCode 1 none)) .eps
        , .wordB ]
      description := "IP地址和端口信息"
      riskLevel := "low" }
  ]

/-- Count of characters outside `[32,126] ∪ { space, tab, LF }` (the
source does not exempt CR). -/
def specialCharCount (s : List Nat) : Nat :=
  s.countP (fun c => (c < 32 || c > 126) && c != 32 && c != 9 && c != 10)

/-- hasRepeatingPattern 检查是否有重复模式. -/
def hasRepeatingPattern (s : List Nat) : Bool :=
  if s.length < 20 then false
  else (List.range (s.length - 10)).any fun i =>
    s.getD i 0 == s.getD (i + 1) 0 && s.getD i 0 == s.getD (i + 2) 0 &&
      s.getD i 0 == s.getD (i + 3) 0

/-- isLikelyGarbage 判断是否为垃圾字符串.  The float comparison
`float64(specialCharCount)/float64(len(str)) > 0.3` is modelled exactly
as `10*specialCharCount > 3*len`. -/
def isLikelyGarbage (s : List Nat) : Bool :=
  if s.length < 10 then false
  else if 10 * specialCharCount s > 3 * s.length then true
  else if hasRepeatingPattern s then true
  else false

/-- The denylist of `isValidCredential`. -/
def excludedTokens : List (List Nat) :=
  [ "true", "false", "null", "void", "main", "class", "string", "int", "bool"
  , "==", "!=", "=<", "=>", "= ", " =", "=p=", "=6", "=N", "=L", "=W", "=f", "=C"
  , "GET", "POST", "HTTP", "Content", "Type", "Length", "Version", "Microsoft"
  , "System", "Windows", "Assembly", "PublicKey", "Culture", "Token"
  ].map strCodes

/-- Class `[a-zA-Z0-9!@#$%^&*()_+-=]`: note that inside the class `+-=` is a
range, covering codes 43–61 (`+ , - . / 0-9 : ; < =`). -/
def credClass1 (c : Nat) : Bool :=
  isAlnumCode c || c == 33 || c == 64 || c == 35 || c == 36 || c == 37 ||
    c == 94 || c == 38 || c == 42 || c == 40 || c == 41 || c == 95 ||
    (43 ≤ c && c ≤ 61)

/-- The `validPatterns` of `hasCredentialLikePattern`, in source order. -/
def validPatterns : List RE :=
  [ -- ^[a-zA-Z0-9!@#$%^&*()_+-=]{4,50}$
    cats [.bol, .rep credClass1 4 (some 50), .eol]
  , -- ^[a-zA-Z0-9._%+-]+@[a-zA-Z0-9.-]+\.[a-zA-Z]{2,}$
    cats [.bol, .rep emailLocalCode 1 none, litc 64, .rep emailDomCode 1 none,
          litc 46, .rep isAlphaCode 2 none, .eol]
  , -- ^\d+\.\d+\.\d+\.\d+$
    cats [.bol, .rep isDigitCode 1 none, litc 46, .rep isDigitCode 1 none,
          litc 46, .rep isDigitCode 1 none, litc 46, .rep isDigitCode 1 none, .eol]
  , -- ^[a-zA-Z0-9]{20,60}$
    cats [.bol, .rep isAlnumCode 20 (some 60), .eol]
  , -- ^[a-zA-Z][a-zA-Z0-9]{3,20}$
    cats [.bol, .cls isAlphaCode, .rep isAlnumCode 3 (some 20), .eol]
  , -- ^[a-zA-Z]+://
    cats [.bol, .rep isAlphaCode 1 none, lits (strCodes "://")]
  , -- ^jdbc:\w+://
    cats [.bol, lits (strCodes "jdbc:"), .rep isWordCode 1 none, lits (strCodes "://")]
  ]

/-- hasCredentialLikePattern 检查是否符合凭据模式. -/
def hasCredentialLikePattern (s : List Nat) : Bool :=
  validPatterns.any (fun p => reMatches p s)

/-- isValidCredential 验证是否为有效凭据. -/
def isValidCredential (s : List Nat) : Bool :=
  if s.length < 3 then false
  else if excludedTokens.any (fun e => listContains s e) then false
  else hasCredentialLikePattern s

/-- isText 判断是否为文本: `> 0.7` modelled exactly over rationals. -/
def isText (data : List Nat) : Bool :=
  10 * (data.countP fun b => (32 ≤ b && b ≤ 126) || b == 10 || b == 13 || b == 9)
    > 7 * data.length

/-- The keyword allow-list of `isMeaningfulString`. -/
def meaningfulKeywords : List (List Nat) :=
  [ "password", "user", "jdbc", "ssh", "ldap", "mysql", "sk-"
  , "账号", "密码", "Connection", "Database", "Server", "Host"
  , "Token", "Key", "Secret", "Auth", "Login", "credential"
  , "connect", "config", "setting", "account", "passwd"
  ].map strCodes

/-- isMeaningfulString 判断字符串是否有意义. -/
def isMeaningfulString (s : List Nat) : Bool :=
  if s.length > 500 || s.length < 8 then false
  else if isLikelyGarbage s then false
  else if meaningfulKeywords.any
      (fun k => listContains (s.map toLowerCode) (k.map toLowerCode)) then true
  else if listContains s (strCodes "://") || listContains s (strCodes "Data Source")
      || listContains s (strCodes "Initial Catalog")
      || listContains s (strCodes "User ID") then true
  else false

/-- State of the ASCII extraction loop of `extractMeaningfulStrings`. -/
structure ExtractState where
  current : List Nat
  seen : List (List Nat)
  results : List (List Nat)
  deriving Repr

/-- Flush inside the loop: records the run in the seen-set. -/
def flushCurrent (st : ExtractState) : ExtractState :=
  if 8 ≤ st.current.length && !(st.seen.contains st.current)
      && isMeaningfulString st.current then
    { current := [], seen := st.current :: st.seen,
      results := st.results ++ [st.current] }
  else { st with current := [] }

/-- Flush after the loop: the source appends without recording the run
in the seen-set. -/
def flushTail (st : ExtractState) : ExtractState :=
  if 8 ≤ st.current.length && !(st.seen.contains st.current)
      && isMeaningfulString st.current then
    { st with current := [], results := st.results ++ [st.current] }
  else { st with current := [] }

def asciiStep (st : ExtractState) (b : Nat) : ExtractState :=
  if 32 ≤ b && b ≤ 126 then { st with current := st.current ++ [b] }
  else flushCurrent st

/-- 16-bit little-endian units of a byte list (a trailing odd byte is
ignored, as in the source's loop bound). -/
def u16Units : List Nat → List Nat
  | a :: b :: rest => (a + 256 * b) :: u16Units rest
  | _ => []

/-- extractUTF16Strings 提取UTF-16字符串 (printable units decode to the
same code points, so no separate UTF-16 decoding step is needed). -/
def utf16Runs (units : List Nat) (cur : List Nat) : List (List Nat) :=
  match units with
  | [] => if 8 ≤ cur.length && isMeaningfulString cur then [cur] else []
  | u :: rest =>
    if 32 ≤ u && u ≤ 126 then utf16Runs rest (cur ++ [u])
    else if 8 ≤ cur.length && isMeaningfulString cur then cur :: utf16Runs rest []
    else utf16Runs rest []

def extractUTF16Strings (data : List Nat) : List (List Nat) :=
  utf16Runs (u16Units data) []

/-- The UTF-16 merge step of `extractMeaningfulStrings`: adds a
UTF-16-extracted string unless it repeats a seen string or is not
meaningful. -/
def addUtf (st : ExtractState) (s : List Nat) : ExtractState :=
  if !(st.seen.contains s) && isMeaningfulString s then
    { st with seen := s :: st.seen, results := st.results ++ [s] }
  else st

/-- extractMeaningfulStrings 提取有意义的字符串. -/
def extractMeaningfulStrings (data : List Nat) : List (List Nat) :=
  ((extractUTF16Strings data).foldl addUtf
    (flushTail (data.foldl asciiStep { current := [], seen := [], results := [] }))).results

def u16le (data : List Nat) (i : Nat) : Nat :=
  data.getD i 0 + 256 * data.getD (i + 1) 0

def u32le (data : List Nat) (i : Nat) : Nat :=
  data.getD i 0 + 256 * data.getD (i + 1) 0 + 65536 * data.getD (i + 2) 0 +
    16777216 * data.getD (i + 3) 0

def DOS_SIGNATURE : Nat := 23117

def PE_SIGNATURE : Nat := 17744

/-- isValidPEFile 验证是否为有效的PE文件.  Every buffer read of the
source is behind the same length guards (Go's `&&` short-circuits
before the `data[peOffset:peOffset+4]` access). -/
def isValidPEFile (data : List Nat) : Bool :=
  if data.length < 2 || u16le data 0 != DOS_SIGNATURE then false
  else if data.length < 64 then false
  else
    let peOffset := u32le data 60
    decide (peOffset + 4 ≤ data.length) && u32le data peOffset == PE_SIGNATURE

/-- findStringOffset 查找字符串在数据中的偏移 (`strings.Index`, `-1`
when absent). -/
def findStringOffset (data pat : List Nat) : Int :=
  match subIndex data pat with
  | some n => (n : Int)
  | none => -1

/-- The "cannot locate" placeholder `无法定位`. -/
def noLocContext : List Nat := strCodes "无法定位"

/-- getStringContext 获取字符串上下文. -/
def getStringContext (data : List Nat) (offset : Int) (contextLen : Nat) : List Nat :=
  if offset = -1 then noLocContext
  else
    let o := offset.toNat
    let start := o - contextLen
    let stop := min data.length (o + contextLen)
    (sliceOf data start stop).map (fun b => if 32 ≤ b && b ≤ 126 then b else 46)

/-- truncateForContext 截断字符串用作上下文. -/
def truncateForContext (s : List Nat) (maxLen : Nat) : List Nat :=
  if s.length ≤ maxLen then s
  else
    let half := maxLen / 2
    s.take half ++ strCodes "..." ++ s.drop (s.length - half)

/-- BinaryMatchResult 二进制匹配结果. -/
structure BinaryMatchResult where
  ruleName : String
  ruleDesc : String
  riskLevel : String
  matchedValue : List Nat
  offset : Int
  context : List Nat
  deriving DecidableEq, Repr

/-- The ordered offset-resolution fallbacks of `checkStringWithRulesEx`:
the full regex match, then the captured value, then the enclosing
candidate string, then (for values longer than 10) the value's first 10
characters. -/
def resolveOffset (data str m0 mv : List Nat) : Int :=
  if findStringOffset data m0 != -1 then findStringOffset data m0
  else if findStringOffset data mv != -1 then findStringOffset data mv
  else if findStringOffset data str != -1 then findStringOffset data str
  else if 10 < mv.length then findStringOffset data (mv.take 10)
  else -1

/-- One rule's results of `checkStringWithRulesEx` on one candidate
string (`len(match) > 1` means the regex has at least one group;
`match[2]` overrides `match[1]` when there are two). -/
def ruleResultsFor (rule : DetectionRule) (str data : List Nat) (contextLen : Nat) :
    List BinaryMatchResult :=
  (findAll rule.pattern str).filterMap (fun m =>
    if rule.pattern.groupCount < 1 then none
    else
      let mv := if 2 ≤ rule.pattern.groupCount then capStr str m.2.2 2
                else capStr str m.2.2 1
      if isValidCredential mv then
        let m0 := sliceOf str m.1 m.2.1
        let offset := resolveOffset data str m0 mv
        let context0 := getStringContext data offset contextLen
        let context := if offset == -1 && context0 == noLocContext
          then truncateForContext str contextLen else context0
        some { ruleName := rule.name, ruleDesc := rule.description,
               riskLevel := rule.riskLevel, matchedValue := mv,
               offset := offset, context := context }
      else none)

/-- checkStringWithRulesEx 使用规则检查字符串（支持自定义上下文长度）. -/
def checkStringWithRulesEx (str data : List Nat) (contextLen : Nat) :
    List BinaryMatchResult :=
  initDetectionRules.flatMap (fun rule => ruleResultsFor rule str data contextLen)

/-- Sextet value of a standard-alphabet base64 character. -/
def b64val (c : Nat) : Option Nat :=
  if 65 ≤ c && c ≤ 90 then some (c - 65)
  else if 97 ≤ c && c ≤ 122 then some (c - 71)
  else if 48 ≤ c && c ≤ 57 then some (c + 4)
  else if c == 43 then some 62
  else if c == 47 then some 63
  else none

/-- Model of `base64.StdEncoding.DecodeString`: rejects lengths not a
multiple of 4, non-alphabet characters and non-final padding. -/
def b64decodeGroups : List Nat → Option (List Nat)
  | [] => some []
  | a :: b :: c :: d :: rest =>
    (match b64val a, b64val b with
     | some va, some vb =>
       if d == 61 then
         if !rest.isEmpty then none
         else if c == 61 then some [va * 4 + vb / 16]
         else
           match b64val c with
           | some vc => some [va * 4 + vb / 16, (vb % 16) * 16 + vc / 4]
           | none => none
       else
         match b64val c, b64val d with
         | some vc, some vd =>
           (b64decodeGroups rest).map (fun tail =>
             (va * 4 + vb / 16) :: ((vb % 16) * 16 + vc / 4) :: ((vc % 4) * 64 + vd) :: tail)
         | _, _ => none
     | _, _ => none)
  | _ => none

def b64decode (cs : List Nat) : Option (List Nat) := b64decodeGroups cs

/-- Pattern `[A-Za-z0-9+/]{40,}[=]{0,2}`. -/
def base64Pattern : RE := .cat (.rep b64Code 40 none) (.rep (· == 61) 0 (some 2))

/-- One rule's results of `checkBase64EncodedEx` on one decoded run. -/
def b64ResultsFor (rule : DetectionRule) (decoded data b64Str : List Nat)
    (start contextLen : Nat) : List BinaryMatchResult :=
  (findAll rule.pattern decoded).filterMap (fun m =>
    if rule.pattern.groupCount < 1 then none
    else
      let mv := if 2 ≤ rule.pattern.groupCount then capStr decoded m.2.2 2
                else capStr decoded m.2.2 1
      if isValidCredential mv then
        let context0 := getStringContext data (start : Int) contextLen
        let context := if context0 == noLocContext
          then strCodes "Base64: " ++ truncateForContext b64Str (contextLen / 2)
            ++ strCodes " -> " ++ truncateForContext decoded (contextLen / 2)
          else context0
        some { ruleName := rule.name ++ " (Base64编码)",
               ruleDesc := rule.description ++ " - Base64编码版本",
               riskLevel := rule.riskLevel, matchedValue := mv,
               offset := (start : Int), context := context }
      else none)

/-- checkBase64EncodedEx 检查Base64编码的内容（支持自定义上下文长度）. -/
def checkBase64EncodedEx (data : List Nat) (contextLen : Nat) :
    List BinaryMatchResult :=
  (findAll base64Pattern data).flatMap (fun m =>
    match b64decode (sliceOf data m.1 m.2.1) with
    | none => []
    | some decoded =>
      if !isText decoded then []
      else initDetectionRules.flatMap
        (fun rule =>
          b64ResultsFor rule decoded data (sliceOf data m.1 m.2.1) m.1 contextLen))

/-- The per-file offset dedup (`seenOffsets`) applied to a pass's
pending results: a result whose offset was already seen is dropped. -/
def dedupEmit : List BinaryMatchResult → List Int → List BinaryMatchResult × List Int
  | [], seen => ([], seen)
  | r :: rest, seen =>
    if seen.contains r.offset then dedupEmit rest seen
    else
      let p := dedupEmit rest (r.offset :: seen)
      (r :: p.1, p.2)

/-- Pass 1 of `ParseWithKeywords`: rules over every candidate string. -/
def rulePass : List (List Nat) → List Nat → Nat → List Int →
    List BinaryMatchResult × List Int
  | [], _, _, seen => ([], seen)
  | s :: rest, data, ctx, seen =>
    let p1 := dedupEmit (checkStringWithRulesEx s data ctx) seen
    let p2 := rulePass rest data ctx p1.2
    (p1.1 ++ p2.1, p2.2)

def codesStr (cs : List Nat) : String := String.mk (cs.map Char.ofNat)

/-- Pass 2, inner loop: first matching keyword for one candidate string;
an already-seen offset `continue`s to the next keyword, a fresh one
emits and `break`s. -/
def keywordScanStr (str : List Nat) (keywords : List (List Nat)) (data : List Nat)
    (contextLen : Nat) (seen : List Int) : List BinaryMatchResult × List Int :=
  match keywords with
  | [] => ([], seen)
  | k :: rest =>
    if listContains str k then
      let offset := findStringOffset data str
      if seen.contains offset then keywordScanStr str rest data contextLen seen
      else
        ([{ ruleName := "关键字匹配",
            ruleDesc := "匹配关键字: " ++ codesStr k,
            riskLevel := "medium", matchedValue := str, offset := offset,
            context := getStringContext data offset contextLen }], offset :: seen)
    else keywordScanStr str rest data contextLen seen

/-- Pass 2 of `ParseWithKeywords`: keywords over every candidate string. -/
def keywordPass : List (List Nat) → List (List Nat) → List Nat → Nat → List Int →
    List BinaryMatchResult × List Int
  | [], _, _, _, seen => ([], seen)
  | s :: rest, kws, data, ctx, seen =>
    let p1 := keywordScanStr s kws data ctx seen
    let p2 := keywordPass rest kws data ctx p1.2
    (p1.1 ++ p2.1, p2.2)

/-- ParseWithKeywords 使用关键字解析二进制文件内容: the full engine,
returning the deduplicated findings in emission order (the source then
serializes each finding with `formatBinaryResult`). -/
def ParseWithKeywords (data : List Nat) (keywords : List (List Nat))
    (contextLen : Nat) : List BinaryMatchResult :=
  if data.length < 64 || !isValidPEFile data then []
  else
    let allStrings := extractMeaningfulStrings data
    let p1 := rulePass allStrings data contextLen []
    let p2 := if 0 < keywords.length
      then keywordPass allStrings keywords data contextLen p1.2
      else ([], p1.2)
    let p3 := dedupEmit (checkBase64EncodedEx data contextLen) p2.2
    p1.1 ++ p2.1 ++ p3.1

/-! ## Concrete buffers used for scenario evaluation -/

/-- A minimal valid MZ/PE header (68 bytes): `MZ`, zero padding, the PE
pointer `0x40` at offset `0x3C`, and the `PE\0\0` signature at `0x40`. -/
def mzHeader : List Nat :=
  [77, 90] ++ List.replicate 58 0 ++ [64, 0, 0, 0] ++ [80, 69, 0, 0]

/-- Scenario A buffer: minimal header plus the ASCII string
`password=Secr3t!123` at byte offset 68. -/
def scenarioAData : List Nat := mzHeader ++ strCodes "password=Secr3t!123"

/-- UTF-16LE byte encoding of an ASCII string. -/
def utf16codes (s : String) : List Nat := (strCodes s).flatMap (fun c => [c, 0])

/-- A valid PE buffer whose only candidate string is the UTF-16 encoded
`passwordXYZ1` (present as interleaved bytes, so never located by the
byte search). -/
def utf16Data : List Nat := mzHeader ++ utf16codes "passwordXYZ1"

/-- Scenario C style buffer: minimal header plus the 40-character base64
encoding of `password=Secr3tPass1234567890A` at byte offset 68. -/
def b64Data : List Nat :=
  mzHeader ++ strCodes "cGFzc3dvcmQ9U2VjcjN0UGFzczEyMzQ1Njc4OTBB"

/-! ## C1: the format-validation gate is fail-closed -/

/-- C1.  A buffer that fails format validation — shorter than 64 bytes,
not beginning with the little-endian signature `0x5A4D`, whose PE
pointer `p` at offset `0x3C` violates `p+4 ≤ len`, or whose 4 bytes at
`p` are not the little-endian signature `0x00004550` — makes
`ParseWithKeywords` return the empty finding list: no extraction or
matching runs (in the model every buffer read is a total guarded read,
so there is no out-of-bounds access on any input). -/
theorem parseWithKeywords_invalid_empty (data : List Nat)
    (keywords : List (List Nat)) (contextLen : Nat)
    (h : data.length < 64 ∨ u16le data 0 ≠ DOS_SIGNATURE ∨
      data.length < u32le data 60 + 4 ∨
      u32le data (u32le data 60) ≠ PE_SIGNATURE) :
    ParseWithKeywords data keywords contextLen = [] := by
  have hgate : (data.length < 64 || !isValidPEFile data) = true := by
    rcases h with h | h | h | h
    · simp [h]
    · simp [isValidPEFile, h]
    · by_cases hl : data.length < 64
      · simp [hl]
      · simp [isValidPEFile, hl, Nat.lt_irrefl]
        exact Or.inr (Or.inl h)
    · by_cases hl : data.length < 64
      · simp [hl]
      · simp [isValidPEFile, hl, Nat.lt_irrefl]
        exact Or.inr (Or.inr h)
  unfold ParseWithKeywords
  simp [hgate]

/-- Witness for C1 at the empty buffer. -/
theorem parseWithKeywords_invalid_empty_witness :
    ([] : List Nat).length < 64 ∧ ParseWithKeywords [] [] 0 = [] :=
  ⟨by decide, parseWithKeywords_invalid_empty [] [] 0 (Or.inl (by decide))⟩

/-! ## C8: scenario A -/

set_option maxRecDepth 1000000

/-- C8.  On the buffer consisting of a minimal valid MZ/PE header
followed by `password=Secr3t!123` at byte offset 68 (and no other
candidate string), the engine with an empty keyword list returns
exactly one finding: the password rule (`密码字段`) at risk level
`critical`, matched value `Secr3t!123`, resolved offset 68. -/
theorem scenarioA_single_critical_finding :
    (ParseWithKeywords scenarioAData [] 50).map
      (fun r => (r.ruleName, r.riskLevel, r.matchedValue, r.offset))
      = [("密码字段", "critical", strCodes "Secr3t!123", 68)] := by
  decide

/-! ## Offset-dedup invariant (C2, C10) -/

/-- Invariant of one dedup-guarded emission step: the emitted results
have pairwise distinct offsets, none of which was already seen, the
seen-set only grows, and every emitted offset is recorded. -/
def SeenInv (seen : List Int) (out : List BinaryMatchResult)
    (seen2 : List Int) : Prop :=
  List.Pairwise (fun a b => a.offset ≠ b.offset) out ∧
  (∀ r ∈ out, r.offset ∉ seen) ∧
  (∀ x ∈ seen, x ∈ seen2) ∧
  (∀ r ∈ out, r.offset ∈ seen2)

theorem SeenInv.empty (seen : List Int) : SeenInv seen [] seen :=
  ⟨.nil, by simp, fun _ h => h, by simp⟩

theorem SeenInv.comp {seen s2 s3 : List Int}
    {out1 out2 : List BinaryMatchResult}
    (h1 : SeenInv seen out1 s2) (h2 : SeenInv s2 out2 s3) :
    SeenInv seen (out1 ++ out2) s3 := by
  obtain ⟨p1, n1, m1, i1⟩ := h1
  obtain ⟨p2, n2, m2, i2⟩ := h2
  refine ⟨?_, ?_, fun x hx => m2 x (m1 x hx), ?_⟩
  · rw [List.pairwise_append]
    exact ⟨p1, p2, fun a ha b hb he => n2 b hb (he ▸ i1 a ha)⟩
  · intro r hr
    rcases List.mem_append.1 hr with h | h
    · exact n1 r h
    · exact fun hc => n2 r h (m1 _ hc)
  · intro r hr
    rcases List.mem_append.1 hr with h | h
    · exact m2 _ (i1 r h)
    · exact i2 r h

theorem dedupEmit_inv (cands : List BinaryMatchResult) (seen : List Int) :
    SeenInv seen (dedupEmit cands seen).1 (dedupEmit cands seen).2 := by
  induction cands generalizing seen with
  | nil => exact SeenInv.empty seen
  | cons r rest ih =>
    by_cases hc : r.offset ∈ seen
    · simpa [dedupEmit, hc] using ih seen
    · have hnotmem : r.offset ∉ seen := hc
      obtain ⟨p, n, m, i⟩ := ih (r.offset :: seen)
      simp only [dedupEmit, List.elem_eq_mem, hc, decide_False, Bool.false_eq_true,
        if_false]
      refine ⟨?_, ?_, ?_, ?_⟩
      · exact List.Pairwise.cons
          (fun b hb => fun he => n b hb (he ▸ List.mem_cons_self _ _)) p
      · intro x hx
        rcases List.mem_cons.1 hx with h | h
        · exact h ▸ hnotmem
        · exact fun hs => n x h (List.mem_cons_of_mem _ hs)
      · exact fun x hx => m x (List.mem_cons_of_mem _ hx)
      · intro x hx
        rcases List.mem_cons.1 hx with h | h
        · exact h ▸ m _ (List.mem_cons_self _ _)
        · exact i x h

theorem keywordScanStr_inv (str : List Nat) (keywords : List (List Nat))
    (data : List Nat) (ctx : Nat) (seen : List Int) :
    SeenInv seen (keywordScanStr str keywords data ctx seen).1
      (keywordScanStr str keywords data ctx seen).2 := by
  induction keywords generalizing seen with
  | nil => exact SeenInv.empty seen
  | cons k rest ih =>
    by_cases hk : listContains str k
    · by_cases hs : findStringOffset data str ∈ seen
      · simpa [keywordScanStr, hk, hs] using ih seen
      · have hnotmem : findStringOffset data str ∉ seen := hs
        simp only [keywordScanStr, hk, List.elem_eq_mem, hs, decide_False,
          Bool.false_eq_true, if_false, if_true]
        refine ⟨List.pairwise_singleton _ _, ?_, ?_, ?_⟩
        · intro r hr
          rcases List.mem_singleton.1 hr with h
          exact h ▸ hnotmem
        · exact fun x hx => List.mem_cons_of_mem _ hx
        · intro r hr
          rcases List.mem_singleton.1 hr with h
          exact h ▸ List.mem_cons_self _ _
    · simpa [keywordScanStr, hk] using ih seen

theorem rulePass_inv (strs : List (List Nat)) (data : List Nat) (ctx : Nat)
    (seen : List Int) :
    SeenInv seen (rulePass strs data ctx seen).1 (rulePass strs data ctx seen).2 := by
  induction strs generalizing seen with
  | nil => exact SeenInv.empty seen
  | cons s rest ih =>
    simp only [rulePass]
    exact SeenInv.comp (dedupEmit_inv _ seen) (ih _)

theorem keywordPass_inv (strs keywords : List (List Nat)) (data : List Nat)
    (ctx : Nat) (seen : List Int) :
    SeenInv seen (keywordPass strs keywords data ctx seen).1
      (keywordPass strs keywords data ctx seen).2 := by
  induction strs generalizing seen with
  | nil => exact SeenInv.empty seen
  | cons s rest ih =>
    simp only [keywordPass]
    exact SeenInv.comp (keywordScanStr_inv s keywords data ctx seen) (ih _)

/-- The engine's full output has pairwise distinct offsets (shared
helper for the dedup claims). -/
theorem parseWithKeywords_pairwise_aux (data : List Nat)
    (keywords : List (List Nat)) (contextLen : Nat) :
    List.Pairwise (fun a b => a.offset ≠ b.offset)
      (ParseWithKeywords data keywords contextLen) := by
  unfold ParseWithKeywords
  by_cases hg : (data.length < 64 || !isValidPEFile data) = true
  · simp [hg]
  · simp only [hg, Bool.false_eq_true, if_false]
    have h1 := rulePass_inv (extractMeaningfulStrings data) data contextLen []
    by_cases hk : 0 < keywords.length
    · have h2 := keywordPass_inv (extractMeaningfulStrings data) keywords data
        contextLen (rulePass (extractMeaningfulStrings data) data contextLen []).2
      have h3 := dedupEmit_inv (checkBase64EncodedEx data contextLen)
        (keywordPass (extractMeaningfulStrings data) keywords data contextLen
          (rulePass (extractMeaningfulStrings data) data contextLen []).2).2
      simpa [hk] using ((h1.comp h2).comp h3).1
    · have h3 := dedupEmit_inv (checkBase64EncodedEx data contextLen)
        (rulePass (extractMeaningfulStrings data) data contextLen []).2
      simpa [hk] using (h1.comp h3).1

/-- C2.  No two findings of `ParseWithKeywords` share an offset: the
single per-file seen-offset set accumulates across rule pass → keyword
pass → base64 pass, and a finding at an already-recorded offset is
discarded, whichever rule or pass produced it. -/
theorem parseWithKeywords_offset_dedup (data : List Nat)
    (keywords : List (List Nat)) (contextLen : Nat) :
    List.Pairwise (fun a b => a.offset ≠ b.offset)
      (ParseWithKeywords data keywords contextLen) :=
  parseWithKeywords_pairwise_aux data keywords contextLen

theorem countP_le_one_of_pairwise {l : List BinaryMatchResult}
    (h : List.Pairwise (fun a b => a.offset ≠ b.offset) l) (v : Int) :
    l.countP (fun r => r.offset == v) ≤ 1 := by
  induction l with
  | nil => simp
  | cons a rest ih =>
    have hrest := ih h.tail
    by_cases ha : a.offset = v
    · have hzero : rest.countP (fun r => r.offset == v) = 0 := by
        rw [List.countP_eq_zero]
        intro b hb
        have := (List.pairwise_cons.mp h).1 b hb
        simp only [beq_iff_eq]
        exact fun hc => this (ha ▸ hc ▸ rfl)
      simp [List.countP_cons, ha, hzero]
    · simpa [List.countP_cons, ha] using hrest

/-- C10.  The unresolved sentinel `-1` enters the same seen-offset set
as real offsets, so at most one finding of the whole output has an
unresolved offset. -/
theorem parseWithKeywords_single_unresolved (data : List Nat)
    (keywords : List (List Nat)) (contextLen : Nat) :
    (ParseWithKeywords data keywords contextLen).countP
      (fun r => r.offset == -1) ≤ 1 :=
  countP_le_one_of_pairwise
    (parseWithKeywords_pairwise_aux data keywords contextLen) (-1)

/-! ## Regex-engine lemmas -/

theorem clsRun_le_length (p : Nat → Bool) (l : List Nat) : clsRun p l ≤ l.length := by
  induction l with
  | nil => simp [clsRun]
  | cons c rest ih =>
    by_cases hc : p c
    · simp only [clsRun, hc, if_true, List.length_cons]
      omega
    · simp [clsRun, hc]

theorem le_clsRun_iff (p : Nat → Bool) (l : List Nat) (k : Nat) :
    k ≤ clsRun p l ↔ k ≤ l.length ∧ ∀ i < k, p (l.getD i 0) = true := by
  induction l generalizing k with
  | nil =>
    simp only [clsRun, List.length_nil, Nat.le_zero]
    constructor
    · rintro rfl; exact ⟨rfl, by omega⟩
    · exact fun h => h.1
  | cons c rest ih =>
    cases k with
    | zero => simp
    | succ k =>
      by_cases hc : p c
      · simp only [clsRun, hc, if_true, Nat.succ_le_succ_iff, List.length_cons, ih]
        constructor
        · rintro ⟨hlen, hall⟩
          refine ⟨by omega, fun i hi => ?_⟩
          cases i with
          | zero => simpa using hc
          | succ i => simpa using hall i (by omega)
        · rintro ⟨hlen, hall⟩
          refine ⟨by omega, fun i hi => ?_⟩
          simpa using hall (i + 1) (by omega)
      · have h0 : clsRun p (c :: rest) = 0 := by simp [clsRun, hc]
        rw [h0]
        constructor
        · intro h
          exact absurd h (by omega)
        · rintro ⟨-, hall⟩
          have := hall 0 (by omega)
          simp at this
          exact absurd this hc

theorem getD_drop (s : List Nat) (pos i : Nat) :
    (s.drop pos).getD i 0 = s.getD (pos + i) 0 := by
  induction s generalizing pos with
  | nil => simp
  | cons c rest ih =>
    cases pos with
    | zero => simp
    | succ pos =>
      have harith : pos + 1 + i = (pos + i) + 1 := by omega
      simp only [List.drop_succ_cons, harith, List.getD_cons_succ]
      exact ih pos

theorem mem_repEnds {p : Nat → Bool} {lo : Nat} {hi : Option Nat}
    {s : List Nat} {pos e : Nat} :
    e ∈ repEnds p lo hi s pos ↔
      ∃ k, e = pos + k ∧ lo ≤ k ∧ k ≤ clsRun p (s.drop pos) ∧
        ∀ h, hi = some h → k ≤ h := by
  unfold repEnds
  set run := clsRun p (s.drop pos) with hrun
  have hm : ∀ m, (¬ m < lo) →
      (e ∈ (List.range (m + 1 - lo)).map (fun k => pos + (m - k)) ↔
        ∃ k, e = pos + k ∧ lo ≤ k ∧ k ≤ m) := by
    intro m hlo
    simp only [List.mem_map, List.mem_range]
    constructor
    · rintro ⟨k0, hk0, rfl⟩
      exact ⟨m - k0, rfl, by omega, by omega⟩
    · rintro ⟨k, rfl, hk1, hk2⟩
      exact ⟨m - k, by omega, by rw [Nat.sub_sub_self hk2]⟩
  cases hi with
  | none =>
    by_cases hlo : run < lo
    · simp only [hlo, if_true]
      constructor
      · simp
      · rintro ⟨k, _, h1, h2, _⟩
        omega
    · simp only [hlo, if_false, hm run hlo]
      constructor
      · rintro ⟨k, rfl, h1, h2⟩
        exact ⟨k, rfl, h1, h2, by simp⟩
      · rintro ⟨k, rfl, h1, h2, _⟩
        exact ⟨k, rfl, h1, h2⟩
  | some h =>
    by_cases hlo : min run h < lo
    · simp only [hlo, if_true]
      constructor
      · simp
      · rintro ⟨k, _, h1, h2, h3⟩
        have := h3 h rfl
        omega
    · simp only [hlo, if_false, hm (min run h) hlo]
      constructor
      · rintro ⟨k, rfl, h1, h2⟩
        exact ⟨k, rfl, h1, by omega, fun x hx => by
          cases hx
          omega⟩
      · rintro ⟨k, rfl, h1, h2, h3⟩
        have := h3 h rfl
        exact ⟨k, rfl, h1, by omega⟩

theorem mem_ends_cls {p : Nat → Bool} {s : List Nat} {pos : Nat}
    {ec : Nat × Caps} :
    ec ∈ ends (.cls p) s pos ↔
      pos < s.length ∧ p (s.getD pos 0) = true ∧ ec = (pos + 1, []) := by
  by_cases h1 : pos < s.length
  · by_cases h2 : p (s.getD pos 0) <;> simp [ends, h1, h2]
  · simp [ends, h1]

theorem mem_ends_cat {a b : RE} {s : List Nat} {pos : Nat} {e : Nat} {c : Caps} :
    (e, c) ∈ ends (.cat a b) s pos ↔
      ∃ m ca cb, (m, ca) ∈ ends a s pos ∧ (e, cb) ∈ ends b s m ∧ c = ca ++ cb := by
  simp only [ends, List.mem_flatMap, List.mem_map]
  constructor
  · rintro ⟨⟨m, ca⟩, hma, ⟨e2, cb⟩, hmb, heq⟩
    obtain ⟨he, hc⟩ := Prod.mk.injEq .. ▸ heq
    refine ⟨m, ca, cb, hma, ?_, hc.symm⟩
    simp only [Prod.mk.injEq] at heq
    exact heq.1 ▸ hmb
  · rintro ⟨m, ca, cb, hma, hmb, rfl⟩
    exact ⟨(m, ca), hma, (e, cb), hmb, rfl⟩

theorem mem_ends_alt {a b : RE} {s : List Nat} {pos : Nat} {ec : Nat × Caps} :
    ec ∈ ends (.alt a b) s pos ↔ ec ∈ ends a s pos ∨ ec ∈ ends b s pos := by
  simp [ends]

theorem mem_ends_rep {p : Nat → Bool} {lo : Nat} {hi : Option Nat}
    {s : List Nat} {pos e : Nat} {c : Caps} :
    (e, c) ∈ ends (.rep p lo hi) s pos ↔ e ∈ repEnds p lo hi s pos ∧ c = [] := by
  simp only [ends, List.mem_map, Prod.mk.injEq]
  constructor
  · rintro ⟨x, hx, rfl, rfl⟩
    exact ⟨hx, rfl⟩
  · rintro ⟨hx, rfl⟩
    exact ⟨e, hx, rfl, rfl⟩

theorem mem_ends_grp {n : Nat} {r : RE} {s : List Nat} {pos e : Nat} {c : Caps} :
    (e, c) ∈ ends (.grp n r) s pos ↔
      ∃ c2, (e, c2) ∈ ends r s pos ∧ c = (n, pos, e) :: c2 := by
  simp only [ends, List.mem_map, Prod.mk.injEq]
  constructor
  · rintro ⟨⟨e2, c2⟩, hm, rfl, rfl⟩
    exact ⟨c2, hm, rfl⟩
  · rintro ⟨c2, hm, rfl⟩
    exact ⟨(e, c2), hm, rfl, rfl⟩

theorem mem_ends_eps {s : List Nat} {pos : Nat} {ec : Nat × Caps} :
    ec ∈ ends .eps s pos ↔ ec = (pos, []) := by
  simp [ends]

theorem mem_ends_bol {s : List Nat} {pos : Nat} {ec : Nat × Caps} :
    ec ∈ ends .bol s pos ↔ pos = 0 ∧ ec = (pos, []) := by
  by_cases h : pos = 0 <;> simp [ends, h]

theorem mem_ends_eol {s : List Nat} {pos : Nat} {ec : Nat × Caps} :
    ec ∈ ends .eol s pos ↔ pos = s.length ∧ ec = (pos, []) := by
  by_cases h : pos = s.length <;> simp [ends, h]

theorem ends_bounds (re : RE) (s : List Nat) :
    ∀ pos, pos ≤ s.length → ∀ ec ∈ ends re s pos, pos ≤ ec.1 ∧ ec.1 ≤ s.length := by
  induction re with
  | eps => intro pos hpos ec hec; simp [mem_ends_eps] at hec; simp [hec]; omega
  | cls p =>
    intro pos hpos ec hec
    rw [mem_ends_cls] at hec
    obtain ⟨h1, _, rfl⟩ := hec
    simp
    omega
  | cat a b iha ihb =>
    intro pos hpos ec hec
    obtain ⟨e, c⟩ := ec
    rw [mem_ends_cat] at hec
    obtain ⟨m, ca, cb, hma, hmb, _⟩ := hec
    have h1 := iha pos hpos (m, ca) hma
    have h2 := ihb m (by simpa using h1.2) (e, cb) hmb
    simp only at h1 h2 ⊢
    omega
  | alt a b iha ihb =>
    intro pos hpos ec hec
    rw [mem_ends_alt] at hec
    rcases hec with h | h
    · exact iha pos hpos ec h
    · exact ihb pos hpos ec h
  | rep p lo hi =>
    intro pos hpos ec hec
    obtain ⟨e, c⟩ := ec
    rw [mem_ends_rep] at hec
    obtain ⟨he, rfl⟩ := hec
    rw [mem_repEnds] at he
    obtain ⟨k, rfl, _, hk2, _⟩ := he
    have := clsRun_le_length p (s.drop pos)
    simp only [List.length_drop] at this
    simp
    omega
  | grp n r ih =>
    intro pos hpos ec hec
    obtain ⟨e, c⟩ := ec
    rw [mem_ends_grp] at hec
    obtain ⟨c2, hm, _⟩ := hec
    exact ih pos hpos (e, c2) hm
  | bol =>
    intro pos hpos ec hec
    rw [mem_ends_bol] at hec
    simp [hec.2]
    omega
  | eol =>
    intro pos hpos ec hec
    rw [mem_ends_eol] at hec
    simp [hec.2, hec.1]
  | wordB =>
    intro pos hpos ec hec
    simp only [ends] at hec
    by_cases h : wordAtLeft s pos != wordAtRight s pos
    · simp [h] at hec
      simp [hec]
      omega
    · simp [h] at hec

theorem scanFromAux_some {re : RE} {s : List Nat} :
    ∀ fuel pos st e c, pos ≤ s.length →
      scanFromAux re s fuel pos = some (st, e, c) →
      pos ≤ st ∧ st ≤ s.length ∧ (e, c) ∈ ends re s st := by
  intro fuel
  induction fuel with
  | zero => intro pos st e c _ h; simp [scanFromAux] at h
  | succ fuel ih =>
    intro pos st e c hpos h
    simp only [scanFromAux] at h
    cases hends : ends re s pos with
    | cons ec rest =>
      rw [hends] at h
      obtain ⟨rfl, h2⟩ : pos = st ∧ ec = (e, c) := by simpa using h
      refine ⟨Nat.le_refl _, hpos, ?_⟩
      rw [← h2, hends]
      exact List.mem_cons_self _ _
    | nil =>
      rw [hends] at h
      by_cases hlt : pos < s.length
      · rw [if_pos hlt] at h
        have := ih (pos + 1) st e c (by omega) h
        exact ⟨by omega, this.2.1, this.2.2⟩
      · rw [if_neg hlt] at h
        exact absurd h (by simp)

theorem scanFrom_some {re : RE} {s : List Nat} {pos st e : Nat} {c : Caps}
    (hpos : pos ≤ s.length) (h : scanFrom re s pos = some (st, e, c)) :
    pos ≤ st ∧ st ≤ s.length ∧ (e, c) ∈ ends re s st :=
  scanFromAux_some _ pos st e c hpos h

theorem scanFromAux_isSome {re : RE} {s : List Nat} :
    ∀ fuel pos, pos ≤ s.length → s.length + 1 - pos ≤ fuel →
      ((scanFromAux re s fuel pos).isSome = true ↔
        ∃ st, pos ≤ st ∧ st ≤ s.length ∧ ends re s st ≠ []) := by
  intro fuel
  induction fuel with
  | zero => intro pos hpos hfuel; omega
  | succ fuel ih =>
    intro pos hpos hfuel
    simp only [scanFromAux]
    cases hends : ends re s pos with
    | cons ec rest =>
      simp only [Option.isSome_some, true_iff]
      exact ⟨pos, Nat.le_refl _, hpos, by simp [hends]⟩
    | nil =>
      by_cases hlt : pos < s.length
      · rw [if_pos hlt, ih (pos + 1) (by omega) (by omega)]
        constructor
        · rintro ⟨st, h1, h2, h3⟩
          exact ⟨st, by omega, h2, h3⟩
        · rintro ⟨st, h1, h2, h3⟩
          refine ⟨st, ?_, h2, h3⟩
          rcases Nat.eq_or_lt_of_le h1 with rfl | h
          · exact absurd hends h3
          · omega
      · rw [if_neg hlt]
        simp only [Option.isSome_none, Bool.false_eq_true, false_iff]
        rintro ⟨st, h1, h2, h3⟩
        have : st = pos := by omega
        exact h3 (this ▸ hends)

theorem scanFrom_isSome_iff {re : RE} {s : List Nat} {pos : Nat}
    (hpos : pos ≤ s.length) :
    ((scanFrom re s pos).isSome = true ↔
      ∃ st, pos ≤ st ∧ st ≤ s.length ∧ ends re s st ≠ []) :=
  scanFromAux_isSome _ pos hpos (by omega)

theorem reMatches_iff {re : RE} {s : List Nat} :
    reMatches re s = true ↔ ∃ st, st ≤ s.length ∧ ends re s st ≠ [] := by
  rw [reMatches, scanFrom_isSome_iff (Nat.zero_le _)]
  simp

theorem mem_findAllFrom {re : RE} {s : List Nat} :
    ∀ fuel pos m, m ∈ findAllFrom re s fuel pos →
      m.1 ≤ s.length ∧ (m.2.1, m.2.2) ∈ ends re s m.1 := by
  intro fuel
  induction fuel with
  | zero => intro pos m h; simp [findAllFrom] at h
  | succ fuel ih =>
    intro pos m h
    simp only [findAllFrom] at h
    by_cases hgt : pos > s.length
    · rw [if_pos hgt] at h; simp at h
    · rw [if_neg hgt] at h
      cases hscan : scanFrom re s pos with
      | none => rw [hscan] at h; simp at h
      | some v =>
        obtain ⟨st, e, c⟩ := v
        rw [hscan] at h
        rcases List.mem_cons.1 h with rfl | h
        · have := scanFrom_some (by omega) hscan
          exact ⟨this.2.1, this.2.2⟩
        · exact ih _ m h

theorem mem_findAll {re : RE} {s : List Nat} {m : Nat × Nat × Caps}
    (h : m ∈ findAll re s) :
    m.1 ≤ s.length ∧ (m.2.1, m.2.2) ∈ ends re s m.1 :=
  mem_findAllFrom _ 0 m h

/-- A base64-pattern match starts strictly inside the buffer (it
consumes at least 40 characters). -/
theorem base64_match_lt {s : List Nat} {m : Nat × Nat × Caps}
    (h : m ∈ findAll base64Pattern s) : m.1 < s.length := by
  obtain ⟨hle, hends⟩ := mem_findAll h
  rw [base64Pattern, mem_ends_cat] at hends
  obtain ⟨mid, ca, cb, hma, hmb, hcc⟩ := hends
  rw [mem_ends_rep] at hma
  obtain ⟨hmid, -⟩ := hma
  rw [mem_repEnds] at hmid
  obtain ⟨k, heq, hk1, hk2, -⟩ := hmid
  have hcl := clsRun_le_length b64Code (s.drop m.1)
  simp only [List.length_drop] at hcl
  omega

/-! ## C3: resolved offsets are in bounds -/

theorem subIndex_some {hay pat : List Nat} {i : Nat}
    (h : subIndex hay pat = some i) :
    i + pat.length ≤ hay.length ∧ (pat = [] → i = 0) := by
  induction hay generalizing i with
  | nil =>
    simp only [subIndex] at h
    by_cases hp : pat.isEmpty
    · rw [if_pos hp] at h
      obtain rfl : i = 0 := by simpa using h.symm
      have : pat = [] := List.isEmpty_iff.1 hp
      simp [this]
    · rw [if_neg hp] at h
      exact absurd h (by simp)
  | cons a t ih =>
    simp only [subIndex] at h
    by_cases hp : pat.isPrefixOf (a :: t)
    · rw [if_pos hp] at h
      obtain rfl : i = 0 := by simpa using h.symm
      have hle := (List.isPrefixOf_iff_prefix.1 hp).length_le
      exact ⟨by simpa using hle, fun _ => rfl⟩
    · rw [if_neg hp] at h
      obtain ⟨j, hj, rfl⟩ := Option.map_eq_some'.1 h
      obtain ⟨hb, _⟩ := ih hj
      refine ⟨by simp; omega, fun hpat => ?_⟩
      exact absurd hp (by simp [hpat, List.isPrefixOf])

theorem findStringOffset_cases (data pat : List Nat) (hlen : 0 < data.length) :
    findStringOffset data pat = -1 ∨
      (0 ≤ findStringOffset data pat ∧
        findStringOffset data pat < (data.length : Int)) := by
  cases hs : subIndex data pat with
  | none => exact Or.inl (by simp [findStringOffset, hs])
  | some n =>
    right
    have hval : findStringOffset data pat = (n : Int) := by
      simp [findStringOffset, hs]
    rw [hval]
    obtain ⟨hb, hz⟩ := subIndex_some hs
    refine ⟨by simp, ?_⟩
    by_cases hp : pat = []
    · have h0 : n = 0 := hz hp
      subst h0
      exact_mod_cast hlen
    · have hpl : 0 < pat.length := List.length_pos.2 hp
      exact_mod_cast (show n < data.length by omega)

theorem resolveOffset_bounds (data str m0 mv : List Nat) (hlen : 0 < data.length) :
    resolveOffset data str m0 mv = -1 ∨
      (0 ≤ resolveOffset data str m0 mv ∧
        resolveOffset data str m0 mv < (data.length : Int)) := by
  unfold resolveOffset
  split_ifs <;>
    first
      | exact Or.inl rfl
      | exact findStringOffset_cases data _ hlen

theorem getStringContext_neg_one (data : List Nat) (ctx : Nat) :
    getStringContext data (-1) ctx = noLocContext := by
  simp [getStringContext]

theorem mem_ruleResultsFor {rule : DetectionRule} {str data : List Nat}
    {contextLen : Nat} {r : BinaryMatchResult}
    (h : r ∈ ruleResultsFor rule str data contextLen) :
    (∃ m0 mv, r.offset = resolveOffset data str m0 mv) ∧ r.ruleName = rule.name ∧
      ((r.offset = -1 ∧ r.context = truncateForContext str contextLen) ∨
        (r.offset ≠ -1 ∧ r.context = getStringContext data r.offset contextLen)) := by
  unfold ruleResultsFor at h
  obtain ⟨m, hm, hf⟩ := List.mem_filterMap.1 h
  by_cases hg : rule.pattern.groupCount < 1
  · rw [if_pos hg] at hf
    exact absurd hf (by simp)
  · rw [if_neg hg] at hf
    set mv := if 2 ≤ rule.pattern.groupCount then capStr str m.2.2 2
      else capStr str m.2.2 1 with hmv
    by_cases hv : isValidCredential mv
    · rw [if_pos hv] at hf
      obtain rfl := (Option.some.injEq .. ▸ hf).symm
      refine ⟨⟨sliceOf str m.1 m.2.1, mv, rfl⟩, rfl, ?_⟩
      by_cases hneg : resolveOffset data str (sliceOf str m.1 m.2.1) mv = -1
      · left
        refine ⟨hneg, ?_⟩
        simp only [hneg, getStringContext_neg_one]
        simp
      · right
        refine ⟨hneg, ?_⟩
        simp only
        rw [if_neg]
        simp [hneg]
    · rw [if_neg hv] at hf
      exact absurd hf (by simp)

theorem mem_checkStringWithRulesEx {str data : List Nat} {contextLen : Nat}
    {r : BinaryMatchResult} (h : r ∈ checkStringWithRulesEx str data contextLen) :
    ∃ m0 mv, r.offset = resolveOffset data str m0 mv := by
  unfold checkStringWithRulesEx at h
  obtain ⟨rule, _, hr⟩ := List.mem_flatMap.1 h
  exact (mem_ruleResultsFor hr).1

theorem dedupEmit_subset {cands : List BinaryMatchResult} {seen : List Int}
    {r : BinaryMatchResult} (h : r ∈ (dedupEmit cands seen).1) : r ∈ cands := by
  induction cands generalizing seen with
  | nil => simpa [dedupEmit] using h
  | cons a rest ih =>
    by_cases hc : seen.contains a.offset
    · simp only [dedupEmit, hc, if_true] at h
      exact List.mem_cons_of_mem _ (ih h)
    · simp only [dedupEmit, hc, Bool.false_eq_true, if_false] at h
      rcases List.mem_cons.1 h with rfl | h
      · exact List.mem_cons_self _ _
      · exact List.mem_cons_of_mem _ (ih h)

theorem rulePass_offset {strs : List (List Nat)} {data : List Nat} {ctx : Nat}
    {seen : List Int} {r : BinaryMatchResult}
    (h : r ∈ (rulePass strs data ctx seen).1) :
    ∃ str m0 mv, r.offset = resolveOffset data str m0 mv := by
  induction strs generalizing seen with
  | nil => simpa [rulePass] using h
  | cons s rest ih =>
    simp only [rulePass] at h
    rcases List.mem_append.1 h with h | h
    · obtain ⟨m0, mv, hoff⟩ := mem_checkStringWithRulesEx (dedupEmit_subset h)
      exact ⟨s, m0, mv, hoff⟩
    · exact ih h

theorem keywordScanStr_offset {str : List Nat} {keywords : List (List Nat)}
    {data : List Nat} {ctx : Nat} {seen : List Int} {r : BinaryMatchResult}
    (h : r ∈ (keywordScanStr str keywords data ctx seen).1) :
    r.offset = findStringOffset data str ∧ r.ruleName = "关键字匹配" ∧
      r.context = getStringContext data r.offset ctx := by
  induction keywords generalizing seen with
  | nil => simp [keywordScanStr] at h
  | cons k rest ih =>
    by_cases hk : listContains str k
    · by_cases hs : seen.contains (findStringOffset data str)
      · simp only [keywordScanStr, hk, if_true, hs] at h
        exact ih h
      · simp only [keywordScanStr, hk, if_true, hs, Bool.false_eq_true, if_false] at h
        rcases List.mem_singleton.1 h with rfl
        exact ⟨rfl, rfl, rfl⟩
    · simp only [keywordScanStr, hk, Bool.false_eq_true, if_false] at h
      exact ih h

theorem keywordPass_offset {strs keywords : List (List Nat)} {data : List Nat}
    {ctx : Nat} {seen : List Int} {r : BinaryMatchResult}
    (h : r ∈ (keywordPass strs keywords data ctx seen).1) :
    ∃ s, r.offset = findStringOffset data s ∧ r.ruleName = "关键字匹配" ∧
      r.context = getStringContext data r.offset ctx := by
  induction strs generalizing seen with
  | nil => simp [keywordPass] at h
  | cons s rest ih =>
    simp only [keywordPass] at h
    rcases List.mem_append.1 h with h | h
    · exact ⟨s, keywordScanStr_offset h⟩
    · exact ih h

/-- A context window of a resolved offset contains only bytes in
`[32,126]` and is at most `2*contextLen` long. -/
theorem getStringContext_of_ne (data : List Nat) (off : Int) (ctx : Nat)
    (h : off ≠ -1) :
    (∀ c ∈ getStringContext data off ctx, 32 ≤ c ∧ c ≤ 126) ∧
      (getStringContext data off ctx).length ≤ 2 * ctx := by
  unfold getStringContext
  rw [if_neg h]
  constructor
  · intro c hc
    simp only [List.mem_map] at hc
    obtain ⟨b, hb, rfl⟩ := hc
    by_cases hpb : (32 ≤ b && b ≤ 126) = true
    · rw [if_pos hpb]
      simpa using hpb
    · rw [if_neg hpb]
      omega
  · rw [List.length_map]
    unfold sliceOf
    rw [List.length_take, List.length_drop]
    omega

theorem getStringContext_ne_noLoc {data : List Nat} {off : Int} {ctx : Nat}
    (h : off ≠ -1) : getStringContext data off ctx ≠ noLocContext := by
  intro heq
  have hp := (getStringContext_of_ne data off ctx h).1
  rw [heq] at hp
  have hmem : (26080 : Nat) ∈ noLocContext := by decide
  have := hp 26080 hmem
  omega

theorem mem_b64ResultsFor {rule : DetectionRule} {decoded data b64Str : List Nat}
    {start ctx : Nat} {r : BinaryMatchResult}
    (h : r ∈ b64ResultsFor rule decoded data b64Str start ctx) :
    r.offset = (start : Int) ∧ r.ruleName = rule.name ++ " (Base64编码)" ∧
      r.context = getStringContext data (start : Int) ctx := by
  unfold b64ResultsFor at h
  obtain ⟨m, hm, hf⟩ := List.mem_filterMap.1 h
  by_cases hg : rule.pattern.groupCount < 1
  · rw [if_pos hg] at hf
    exact absurd hf (by simp)
  · rw [if_neg hg] at hf
    by_cases hv : isValidCredential (if 2 ≤ rule.pattern.groupCount
        then capStr decoded m.2.2 2 else capStr decoded m.2.2 1)
    · rw [if_pos hv] at hf
      obtain rfl := (Option.some.injEq .. ▸ hf).symm
      refine ⟨rfl, rfl, ?_⟩
      simp only
      rw [if_neg]
      simp only [beq_iff_eq]
      exact getStringContext_ne_noLoc (by simp)
    · rw [if_neg hv] at hf
      exact absurd hf (by simp)

/-- Provenance of a base64-pass finding: it stems from a base64-pattern
match in the raw buffer, via a successful strict decode whose result is
text-like, its offset is the start of the encoded run, and its rule
name is a corpus rule's name suffixed `" (Base64编码)"`. -/
theorem mem_checkBase64EncodedEx {data : List Nat} {ctx : Nat}
    {r : BinaryMatchResult} (h : r ∈ checkBase64EncodedEx data ctx) :
    ∃ m ∈ findAll base64Pattern data, r.offset = (m.1 : Int) ∧
      r.context = getStringContext data (m.1 : Int) ctx ∧
      ∃ dec, b64decode (sliceOf data m.1 m.2.1) = some dec ∧ isText dec = true ∧
        ∃ rule ∈ initDetectionRules, r.ruleName = rule.name ++ " (Base64编码)" := by
  unfold checkBase64EncodedEx at h
  obtain ⟨m, hm, hr⟩ := List.mem_flatMap.1 h
  refine ⟨m, hm, ?_⟩
  cases hdec : b64decode (sliceOf data m.1 m.2.1) with
  | none => rw [hdec] at hr; simp at hr
  | some decoded =>
    rw [hdec] at hr
    by_cases ht : isText decoded
    · simp only [ht, Bool.not_true, Bool.false_eq_true, if_false,
        List.mem_flatMap] at hr
      obtain ⟨rule, hrule, hr2⟩ := hr
      obtain ⟨hoff, hname, hctx⟩ := mem_b64ResultsFor hr2
      exact ⟨hoff, hctx, decoded, rfl, ht, rule, hrule, hname⟩
    · have ht2 : isText decoded = false := by simpa using ht
      simp [ht2] at hr

def emptyResult : BinaryMatchResult :=
  { ruleName := "", ruleDesc := "", riskLevel := "", matchedValue := []
  , offset := 0, context := [] }

/-- C3.  Every finding of the engine whose offset is resolved (not the
`-1` sentinel) satisfies `0 ≤ offset < len(buffer)`, across all three
passes. -/
theorem parseWithKeywords_offset_bounds (data : List Nat)
    (keywords : List (List Nat)) (contextLen : Nat) (r : BinaryMatchResult)
    (hr : r ∈ ParseWithKeywords data keywords contextLen)
    (hne : r.offset ≠ -1) :
    0 ≤ r.offset ∧ r.offset < (data.length : Int) := by
  unfold ParseWithKeywords at hr
  by_cases hg : (data.length < 64 || !isValidPEFile data) = true
  · rw [if_pos hg] at hr
    exact absurd hr (by simp)
  · rw [if_neg hg] at hr
    have hlen : 0 < data.length := by
      by_contra hc
      exact hg (by simp [show data.length < 64 by omega])
    have hbase : ∀ x ∈ (dedupEmit (checkBase64EncodedEx data contextLen)
        (if 0 < keywords.length
          then keywordPass (extractMeaningfulStrings data) keywords data contextLen
            (rulePass (extractMeaningfulStrings data) data contextLen []).2
          else ([], (rulePass (extractMeaningfulStrings data) data contextLen []).2)).2).1,
        0 ≤ x.offset ∧ x.offset < (data.length : Int) := by
      intro x hx
      obtain ⟨m, hmem, hoff, -, -⟩ := mem_checkBase64EncodedEx (dedupEmit_subset hx)
      have hlt := base64_match_lt hmem
      constructor
      · rw [hoff]; simp
      · rw [hoff]; exact_mod_cast hlt
    rcases List.mem_append.1 hr with hr | hr
    · rcases List.mem_append.1 hr with hr | hr
      · obtain ⟨str, m0, mv, hoff⟩ := rulePass_offset hr
        rcases resolveOffset_bounds data str m0 mv hlen with hcase | hcase
        · exact absurd (hoff.trans hcase) hne
        · exact hoff ▸ hcase
      · by_cases hk : 0 < keywords.length
        · rw [if_pos hk] at hr
          obtain ⟨s, hoff, -, -⟩ := keywordPass_offset hr
          rcases findStringOffset_cases data s hlen with hcase | hcase
          · exact absurd (hoff.trans hcase) hne
          · exact hoff ▸ hcase
        · rw [if_neg hk] at hr
          exact absurd hr (by simp)
    · exact hbase r hr

/-- Witness for C3: the scenario-A finding at offset 68 inside the
87-byte buffer. -/
theorem parseWithKeywords_offset_bounds_witness :
    0 ≤ ((ParseWithKeywords scenarioAData [] 50).headD emptyResult).offset ∧
      ((ParseWithKeywords scenarioAData [] 50).headD emptyResult).offset
        < (scenarioAData.length : Int) :=
  parseWithKeywords_offset_bounds scenarioAData [] 50 _ (by decide) (by decide)

/-! ## C4: context strings -/

/-- All characters of a list lie in the printable ASCII range. -/
def PrintableL (s : List Nat) : Prop := ∀ c ∈ s, 32 ≤ c ∧ c ≤ 126

theorem flushCurrent_printable {st : ExtractState} (hc : PrintableL st.current)
    (hr : ∀ s ∈ st.results, PrintableL s) :
    PrintableL (flushCurrent st).current ∧
      ∀ s ∈ (flushCurrent st).results, PrintableL s := by
  unfold flushCurrent
  split_ifs with h
  · refine ⟨fun c hc2 => by simp at hc2, fun s hs => ?_⟩
    rcases List.mem_append.1 hs with h2 | h2
    · exact hr s h2
    · rcases List.mem_singleton.1 h2 with rfl
      exact hc
  · exact ⟨fun c hc2 => by simp at hc2, hr⟩

theorem flushTail_printable {st : ExtractState} (hc : PrintableL st.current)
    (hr : ∀ s ∈ st.results, PrintableL s) :
    ∀ s ∈ (flushTail st).results, PrintableL s := by
  unfold flushTail
  split_ifs with h
  · intro s hs
    rcases List.mem_append.1 hs with h2 | h2
    · exact hr s h2
    · rcases List.mem_singleton.1 h2 with rfl
      exact hc
  · exact hr

theorem asciiStep_printable {st : ExtractState} {b : Nat} (hc : PrintableL st.current)
    (hr : ∀ s ∈ st.results, PrintableL s) :
    PrintableL (asciiStep st b).current ∧
      ∀ s ∈ (asciiStep st b).results, PrintableL s := by
  unfold asciiStep
  split_ifs with h
  · refine ⟨fun c hc2 => ?_, hr⟩
    rcases List.mem_append.1 hc2 with h2 | h2
    · exact hc c h2
    · rcases List.mem_singleton.1 h2 with rfl
      simpa using h
  · exact flushCurrent_printable hc hr

theorem foldl_asciiStep_printable (data : List Nat) :
    ∀ st : ExtractState, PrintableL st.current →
      (∀ s ∈ st.results, PrintableL s) →
      PrintableL (data.foldl asciiStep st).current ∧
        ∀ s ∈ (data.foldl asciiStep st).results, PrintableL s := by
  induction data with
  | nil => exact fun st hc hr => ⟨hc, hr⟩
  | cons b rest ih =>
    intro st hc hr
    have h := asciiStep_printable (b := b) hc hr
    exact ih _ h.1 h.2

theorem utf16Runs_printable (units : List Nat) :
    ∀ cur, PrintableL cur → ∀ s ∈ utf16Runs units cur, PrintableL s := by
  induction units with
  | nil =>
    intro cur hcur s hs
    unfold utf16Runs at hs
    split_ifs at hs with h
    · rcases List.mem_singleton.1 hs with rfl
      exact hcur
    · simp at hs
  | cons u rest ih =>
    intro cur hcur s hs
    unfold utf16Runs at hs
    split_ifs at hs with h1 h2
    · refine ih _ (fun c hc => ?_) s hs
      rcases List.mem_append.1 hc with h3 | h3
      · exact hcur c h3
      · rcases List.mem_singleton.1 h3 with rfl
        simpa using h1
    · rcases List.mem_cons.1 hs with rfl | h3
      · exact hcur
      · exact ih [] (fun c hc => by simp at hc) s h3
    · exact ih [] (fun c hc => by simp at hc) s hs

theorem foldl_addUtf_printable (us : List (List Nat)) :
    ∀ st : ExtractState, (∀ u ∈ us, PrintableL u) →
      (∀ s ∈ st.results, PrintableL s) →
      ∀ s ∈ (us.foldl addUtf st).results, PrintableL s := by
  induction us with
  | nil => exact fun st _ hst => hst
  | cons u rest ih =>
    intro st hus hst
    rw [List.foldl_cons]
    refine ih (addUtf st u) (fun v hv => hus v (List.mem_cons_of_mem _ hv)) ?_
    unfold addUtf
    split_ifs with h
    · intro s hs
      rcases List.mem_append.1 hs with h2 | h2
      · exact hst s h2
      · have hs2 : s = u := List.mem_singleton.1 h2
        rw [hs2]
        exact hus u (List.mem_cons_self _ _)
    · exact hst

/-- Every extracted candidate string is printable ASCII: ASCII runs by
the extraction guard, UTF-16 runs because their units lie in
`[32,126]`. -/
theorem extractMeaningfulStrings_printable {data s : List Nat}
    (h : s ∈ extractMeaningfulStrings data) : PrintableL s := by
  unfold extractMeaningfulStrings at h
  have h1 := foldl_asciiStep_printable data
    { current := [], seen := [], results := [] }
    (fun c hc => by simp at hc) (fun v hv => by simp at hv)
  have h2 := flushTail_printable h1.1 h1.2
  have h3 := utf16Runs_printable (u16Units data) [] (fun c hc => by simp at hc)
  exact foldl_addUtf_printable _ _ (fun u hu => h3 u hu) h2 s h

theorem truncateForContext_spec {s : List Nat} (ctx : Nat) (hp : PrintableL s) :
    PrintableL (truncateForContext s ctx) ∧
      (truncateForContext s ctx).length ≤ ctx + 3 := by
  have hdots : strCodes "..." = [46, 46, 46] := by decide
  unfold truncateForContext
  split_ifs with h
  · exact ⟨hp, by omega⟩
  · constructor
    · intro c hc
      rcases List.mem_append.1 hc with h2 | h2
      · rcases List.mem_append.1 h2 with h3 | h3
        · exact hp c (List.mem_of_mem_take h3)
        · rw [hdots] at h3
          have : c = 46 := by simpa using h3
          omega
      · exact hp c (List.mem_of_mem_drop h2)
    · rw [List.length_append, List.length_append, hdots]
      rw [List.length_take, List.length_drop]
      simp only [List.length_cons, List.length_nil]
      omega

theorem rulePass_mem {strs : List (List Nat)} {data : List Nat} {ctx : Nat}
    {seen : List Int} {r : BinaryMatchResult}
    (h : r ∈ (rulePass strs data ctx seen).1) :
    ∃ str ∈ strs, r ∈ checkStringWithRulesEx str data ctx := by
  induction strs generalizing seen with
  | nil => simp [rulePass] at h
  | cons s rest ih =>
    simp only [rulePass] at h
    rcases List.mem_append.1 h with h | h
    · exact ⟨s, List.mem_cons_self _ _, dedupEmit_subset h⟩
    · obtain ⟨str, hstr, hmem⟩ := ih h
      exact ⟨str, List.mem_cons_of_mem _ hstr, hmem⟩

theorem mem_checkStringWithRulesEx_context {str data : List Nat} {ctx : Nat}
    {r : BinaryMatchResult} (h : r ∈ checkStringWithRulesEx str data ctx) :
    (r.offset = -1 ∧ r.context = truncateForContext str ctx) ∨
      (r.offset ≠ -1 ∧ r.context = getStringContext data r.offset ctx) := by
  unfold checkStringWithRulesEx at h
  obtain ⟨rule, -, hr⟩ := List.mem_flatMap.1 h
  exact (mem_ruleResultsFor hr).2.2

/-- C4 (amended).  Every finding's context is at most
`2*contextLength + 4` characters; rule-pass and base64-pass findings,
and keyword-pass findings with a resolved offset, have contexts of
printable bytes in `[32,126]` only, while a keyword-pass finding with
an unresolved offset keeps the raw placeholder `无法定位`, whose
characters are not printable ASCII. -/
theorem parseWithKeywords_context_characterization (data : List Nat)
    (keywords : List (List Nat)) (contextLen : Nat) (r : BinaryMatchResult)
    (hr : r ∈ ParseWithKeywords data keywords contextLen) :
    r.context.length ≤ 2 * contextLen + 4 ∧
      ((∀ c ∈ r.context, 32 ≤ c ∧ c ≤ 126) ∨
        (r.ruleName = "关键字匹配" ∧ r.offset = -1 ∧ r.context = noLocContext)) := by
  unfold ParseWithKeywords at hr
  by_cases hg : (data.length < 64 || !isValidPEFile data) = true
  · rw [if_pos hg] at hr
    exact absurd hr (by simp)
  · rw [if_neg hg] at hr
    rcases List.mem_append.1 hr with hr | hr
    · rcases List.mem_append.1 hr with hr | hr
      · obtain ⟨str, hstr, hmem⟩ := rulePass_mem hr
        have hp := extractMeaningfulStrings_printable hstr
        rcases mem_checkStringWithRulesEx_context hmem with ⟨hoff, hctx⟩ | ⟨hoff, hctx⟩
        · have ht := truncateForContext_spec contextLen hp
          rw [hctx]
          exact ⟨by have := ht.2; omega, Or.inl ht.1⟩
        · have hw := getStringContext_of_ne data r.offset contextLen hoff
          rw [hctx]
          exact ⟨by have := hw.2; omega, Or.inl hw.1⟩
      · by_cases hk : 0 < keywords.length
        · rw [if_pos hk] at hr
          obtain ⟨s, hoff, hname, hctx⟩ := keywordPass_offset hr
          by_cases hneg : r.offset = -1
          · have hctx2 : r.context = noLocContext := by
              rw [hctx, hneg, getStringContext_neg_one]
            rw [hctx2]
            refine ⟨?_, Or.inr ⟨hname, hneg, rfl⟩⟩
            have hlen : noLocContext.length = 4 := by decide
            omega
          · have hw := getStringContext_of_ne data r.offset contextLen hneg
            rw [hctx]
            exact ⟨by have := hw.2; omega, Or.inl hw.1⟩
        · rw [if_neg hk] at hr
          exact absurd hr (by simp)
    · obtain ⟨m, hmem, hoff, hctx, -⟩ :=
        mem_checkBase64EncodedEx (dedupEmit_subset hr)
      have hw := getStringContext_of_ne data (m.1 : Int) contextLen
        (show (m.1 : Int) ≠ -1 by simp)
      rw [hctx]
      exact ⟨by have := hw.2; omega, Or.inl hw.1⟩

/-- Counterexample to C4 as stated: on a valid PE buffer whose only
candidate string is stored as UTF-16, the keyword pass matches but the
byte search cannot resolve an offset, and the resulting finding's
context is the UTF-8 placeholder `无法定位`, which contains characters
outside `[32,126] ∪ {'.'}`. -/
theorem context_printable_counterexample :
    ((ParseWithKeywords utf16Data [strCodes "XYZ1"] 10).headD emptyResult).context
        = strCodes "无法定位" ∧
      ((ParseWithKeywords utf16Data [strCodes "XYZ1"] 10).headD emptyResult) ∈
        ParseWithKeywords utf16Data [strCodes "XYZ1"] 10 ∧
      ¬ (∀ c ∈ ((ParseWithKeywords utf16Data [strCodes "XYZ1"] 10).headD
            emptyResult).context, (32 ≤ c ∧ c ≤ 126) ∨ c = 46) := by
  decide

/-- Witness for C4 (amended) at the scenario-A buffer. -/
theorem parseWithKeywords_context_characterization_witness :
    ((ParseWithKeywords scenarioAData [] 50).headD emptyResult).context.length
        ≤ 2 * 50 + 4 ∧
      ((∀ c ∈ ((ParseWithKeywords scenarioAData [] 50).headD emptyResult).context,
          32 ≤ c ∧ c ≤ 126) ∨
        (((ParseWithKeywords scenarioAData [] 50).headD emptyResult).ruleName
            = "关键字匹配" ∧
          ((ParseWithKeywords scenarioAData [] 50).headD emptyResult).offset = -1 ∧
          ((ParseWithKeywords scenarioAData [] 50).headD emptyResult).context
            = noLocContext)) :=
  parseWithKeywords_context_characterization scenarioAData [] 50 _ (by decide)

/-! ## C6: base64-pass findings -/

/-- C6 (amended).  Every base64-pass finding stems from a
`[A-Za-z0-9+/]{40,}={0,2}` run in the raw buffer that decoded
successfully under strict base64 into text-like bytes; its reported
offset is the byte index at which that encoded run starts (never an
offset into the decoded text), and its rule name is the matching
corpus rule's name suffixed `" (Base64编码)"` (not `"(Base64)"`). -/
theorem checkBase64_provenance (data : List Nat) (contextLen : Nat)
    (r : BinaryMatchResult) (h : r ∈ checkBase64EncodedEx data contextLen) :
    ∃ m ∈ findAll base64Pattern data, r.offset = (m.1 : Int) ∧
      ∃ dec, b64decode (sliceOf data m.1 m.2.1) = some dec ∧ isText dec = true ∧
        ∃ rule ∈ initDetectionRules, r.ruleName = rule.name ++ " (Base64编码)" := by
  obtain ⟨m, hm, hoff, -, rest⟩ := mem_checkBase64EncodedEx h
  exact ⟨m, hm, hoff, rest⟩

/-- Witness for C6 (amended): the base64 finding of the scenario-C
style buffer. -/
theorem checkBase64_provenance_witness :
    ∃ m ∈ findAll base64Pattern b64Data,
      ((checkBase64EncodedEx b64Data 50).headD emptyResult).offset = (m.1 : Int) ∧
      ∃ dec, b64decode (sliceOf b64Data m.1 m.2.1) = some dec ∧ isText dec = true ∧
        ∃ rule ∈ initDetectionRules,
          ((checkBase64EncodedEx b64Data 50).headD emptyResult).ruleName
            = rule.name ++ " (Base64编码)" :=
  checkBase64_provenance b64Data 50 _ (by decide)

/-- Counterexample to C6 as stated: the engine's only finding on the
scenario-C style buffer has rule name `密码字段 (Base64编码)`, which is
not any corpus rule's name suffixed `"(Base64)"` (the offset, 68, does
equal the start of the encoded run). -/
theorem base64_suffix_counterexample :
    (ParseWithKeywords b64Data [] 50).map (fun r => (r.ruleName, r.offset))
        = [("密码字段 (Base64编码)", 68)] ∧
      ∀ rule ∈ initDetectionRules,
        "密码字段 (Base64编码)" ≠ rule.name ++ "(Base64)" := by
  decide

/-! ## C9: the scan orchestrator is schedule-independent -/

/-- Insertion into the orchestrator's shared result map
(`s.fileResults[path] = rawResults`, performed under the mutex). -/
def updateMap {α : Type} [DecidableEq α]
    (acc : α → Option (List BinaryMatchResult)) (p : α)
    (v : List BinaryMatchResult) : α → Option (List BinaryMatchResult) :=
  fun q => if q = p then some v else acc q

/-- Model of `Scanner.scanFiles`: each worker parses its file and, when
the result list is non-empty, inserts it under the file's key inside
the mutex-guarded critical section.  `exec` is the order in which the
workers' critical sections are linearized; a semaphore-bounded pool of
any `ThreadCount` produces some permutation of the discovered file
list as its linearization. -/
def scanFilesModel {α : Type} [DecidableEq α]
    (parse : α → List BinaryMatchResult) (exec : List α) :
    α → Option (List BinaryMatchResult) :=
  exec.foldl
    (fun acc p => if parse p = [] then acc else updateMap acc p (parse p))
    (fun _ => none)

theorem scanFoldl_eq {α : Type} [DecidableEq α]
    (parse : α → List BinaryMatchResult) :
    ∀ (exec : List α) (acc : α → Option (List BinaryMatchResult)) (q : α),
      (exec.foldl
          (fun acc p => if parse p = [] then acc else updateMap acc p (parse p))
          acc) q
        = if q ∈ exec ∧ parse q ≠ [] then some (parse q) else acc q := by
  intro exec
  induction exec with
  | nil => simp
  | cons p rest ih =>
    intro acc q
    rw [List.foldl_cons, ih]
    by_cases hq : q ∈ rest ∧ parse q ≠ []
    · rw [if_pos hq, if_pos ⟨List.mem_cons_of_mem _ hq.1, hq.2⟩]
    · rw [if_neg hq]
      by_cases hqp : q = p
      · subst hqp
        by_cases hp : parse q = []
        · rw [if_pos hp, if_neg (fun hcon => hcon.2 hp)]
        · rw [if_neg hp]
          unfold updateMap
          rw [if_pos rfl, if_pos ⟨List.mem_cons_self _ _, hp⟩]
      · have hcond : ¬(q ∈ p :: rest ∧ parse q ≠ []) := by
          rintro ⟨hmem, hne⟩
          rcases List.mem_cons.1 hmem with h | h
          · exact hqp h
          · exact hq ⟨h, hne⟩
        rw [if_neg hcond]
        by_cases hp : parse p = []
        · rw [if_pos hp]
        · rw [if_neg hp]
          unfold updateMap
          rw [if_neg hqp]

/-- C9.  For a fixed file set, keyword list and context length, the
per-file stored result list of the orchestrator is the same under any
two linearizations of the worker executions (in particular under
`ThreadCount = 1` and `ThreadCount = 8`): each file's entry is exactly
the engine's deterministic output on that file's bytes, in the engine's
emission order. -/
theorem scanFiles_threadCount_independent {α : Type} [DecidableEq α]
    (files exec1 exec2 : List α) (keywords : List (List Nat)) (contextLen : Nat)
    (bytes : α → List Nat) (h1 : exec1.Perm files) (h2 : exec2.Perm files) (q : α) :
    scanFilesModel (fun p => ParseWithKeywords (bytes p) keywords contextLen) exec1 q
      = scanFilesModel (fun p => ParseWithKeywords (bytes p) keywords contextLen)
          exec2 q := by
  unfold scanFilesModel
  rw [scanFoldl_eq, scanFoldl_eq]
  by_cases hm : q ∈ files ∧ ParseWithKeywords (bytes q) keywords contextLen ≠ []
  · rw [if_pos ⟨h1.mem_iff.2 hm.1, hm.2⟩, if_pos ⟨h2.mem_iff.2 hm.1, hm.2⟩]
  · have n1 : ¬(q ∈ exec1 ∧ ParseWithKeywords (bytes q) keywords contextLen ≠ []) :=
      fun hc => hm ⟨h1.mem_iff.1 hc.1, hc.2⟩
    have n2 : ¬(q ∈ exec2 ∧ ParseWithKeywords (bytes q) keywords contextLen ≠ []) :=
      fun hc => hm ⟨h2.mem_iff.1 hc.1, hc.2⟩
    rw [if_neg n1, if_neg n2]

/-- Witness for C9: two workers over the scenario-A buffer, executed in
the two possible orders, store the same results for file `0`. -/
theorem scanFiles_threadCount_independent_witness :
    scanFilesModel
        (fun p => ParseWithKeywords ((fun _ => scenarioAData) p) [] 50) [0, 1] 0
      = scanFilesModel
          (fun p => ParseWithKeywords ((fun _ => scenarioAData) p) [] 50) [1, 0] 0 :=
  scanFiles_threadCount_independent (α := Nat) [0, 1] [0, 1] [1, 0] [] 50
    (fun _ => scenarioAData) (List.Perm.refl _) (List.Perm.swap 0 1 []) 0

/-! ## C5: the credential-validity check -/

/-- All positions `a ≤ i < b` of `s` satisfy `p`. -/
def allIdx (p : Nat → Bool) (s : List Nat) (a b : Nat) : Bool :=
  (List.range (b - a)).all fun t => p (s.getD (a + t) 0)

theorem allIdx_iff {p : Nat → Bool} {s : List Nat} {a b : Nat} :
    allIdx p s a b = true ↔ ∀ i, a ≤ i → i < b → p (s.getD i 0) = true := by
  unfold allIdx
  rw [List.all_eq_true]
  constructor
  · intro h i hai hib
    have := h (i - a) (List.mem_range.2 (by omega))
    simpa [show a + (i - a) = i by omega] using this
  · intro h t ht
    have := h (a + t) (by omega) (by have := List.mem_range.1 ht; omega)
    simpa using this

theorem forall_getD_iff {p : Nat → Bool} {s : List Nat} :
    (∀ i < s.length, p (s.getD i 0) = true) ↔ ∀ c ∈ s, p c = true := by
  constructor
  · intro h c hc
    obtain ⟨i, hi, hgc⟩ := List.getElem_of_mem hc
    have h2 := h i hi
    rwa [List.getD_eq_getElem?_getD, List.getElem?_eq_getElem hi,
      Option.getD_some, hgc] at h2
  · intro h i hi
    rw [List.getD_eq_getElem?_getD, List.getElem?_eq_getElem hi, Option.getD_some]
    exact h _ (List.getElem_mem hi)

theorem le_clsRun_drop_iff {p : Nat → Bool} {s : List Nat} {pos k : Nat}
    (hpos : pos ≤ s.length) :
    k ≤ clsRun p (s.drop pos) ↔
      pos + k ≤ s.length ∧ ∀ i < k, p (s.getD (pos + i) 0) = true := by
  rw [le_clsRun_iff]
  simp only [List.length_drop, getD_drop]
  constructor
  · rintro ⟨h1, h2⟩
    exact ⟨by omega, h2⟩
  · rintro ⟨h1, h2⟩
    exact ⟨by omega, h2⟩

theorem mem_ends_litc {x : Nat} {s : List Nat} {pos e : Nat} {c : Caps} :
    (e, c) ∈ ends (litc x) s pos ↔
      pos < s.length ∧ s.getD pos 0 = x ∧ e = pos + 1 ∧ c = [] := by
  rw [litc, mem_ends_cls]
  simp only [beq_iff_eq, Prod.mk.injEq]

theorem mem_ends_lits {cs : List Nat} {s : List Nat} {pos e : Nat} {c : Caps}
    (hpos : pos ≤ s.length) :
    (e, c) ∈ ends (lits cs) s pos ↔
      e = pos + cs.length ∧ c = [] ∧ pos + cs.length ≤ s.length ∧
        ∀ i < cs.length, s.getD (pos + i) 0 = cs.getD i 0 := by
  induction cs generalizing pos with
  | nil =>
    rw [lits, List.foldr_nil, mem_ends_eps]
    simp only [Prod.mk.injEq, List.length_nil, Nat.add_zero]
    constructor
    · rintro ⟨rfl, rfl⟩
      exact ⟨rfl, rfl, hpos, by omega⟩
    · rintro ⟨rfl, rfl, -, -⟩
      exact ⟨rfl, rfl⟩
  | cons a rest ih =>
    rw [lits, List.foldr_cons]
    rw [show (List.foldr (fun c acc => RE.cat (litc c) acc) RE.eps rest) = lits rest
      from rfl]
    rw [mem_ends_cat]
    constructor
    · rintro ⟨m, ca, cb, hma, hmb, rfl⟩
      rw [mem_ends_litc] at hma
      obtain ⟨hlt, hchar, rfl, rfl⟩ := hma
      simp only [List.nil_append] at ih
      rw [ih (by omega)] at hmb
      obtain ⟨rfl, rfl, hlen, hall⟩ := hmb
      simp only [List.nil_append, List.length_cons]
      refine ⟨by omega, True.intro, by omega, ?_⟩
      intro i hi
      cases i with
      | zero => simpa using hchar
      | succ i =>
        have hx := hall i (by omega)
        rw [show pos + 1 + i = pos + (i + 1) by omega] at hx
        simpa using hx
    · rintro ⟨rfl, rfl, hlen, hall⟩
      simp only [List.length_cons] at hlen
      have h0 := hall 0 (by simp)
      refine ⟨pos + 1, [], [], ?_, ?_, rfl⟩
      · rw [mem_ends_litc]
        exact ⟨by omega, by simpa using h0, rfl, rfl⟩
      · rw [ih (by omega)]
        refine ⟨by simp; omega, rfl, by omega, ?_⟩
        intro i hi
        have hx := hall (i + 1) (by simp; omega)
        rw [show pos + (i + 1) = pos + 1 + i by omega] at hx
        simpa using hx

/-- Matches of a `^…$`-anchored pattern exist exactly when the whole
string is one class run of admissible length (covers the generic-token
and long-alphanumeric shapes). -/
theorem repFull_match_iff (p : Nat → Bool) (lo : Nat) (hi : Option Nat)
    (s : List Nat) :
    reMatches (cats [.bol, .rep p lo hi, .eol]) s = true ↔
      lo ≤ s.length ∧ (∀ h, hi = some h → s.length ≤ h) ∧ ∀ c ∈ s, p c = true := by
  rw [show cats [.bol, .rep p lo hi, .eol]
      = .cat .bol (.cat (.rep p lo hi) (.cat .eol .eps)) from rfl]
  rw [reMatches_iff]
  constructor
  · rintro ⟨st, hst, hne⟩
    obtain ⟨⟨e, c⟩, hec⟩ := List.exists_mem_of_ne_nil _ hne
    rw [mem_ends_cat] at hec
    obtain ⟨m, ca, cb, hma, hmb, -⟩ := hec
    rw [mem_ends_bol] at hma
    obtain ⟨hst0, heq⟩ := hma
    simp only [Prod.mk.injEq] at heq
    obtain ⟨hmst, -⟩ := heq
    subst hst0
    subst hmst
    rw [mem_ends_cat] at hmb
    obtain ⟨m2, ca2, cb2, hma2, hmb2, -⟩ := hmb
    rw [mem_ends_rep] at hma2
    obtain ⟨hrep, -⟩ := hma2
    rw [mem_ends_cat] at hmb2
    obtain ⟨m3, ca3, cb3, hma3, -, -⟩ := hmb2
    rw [mem_ends_eol] at hma3
    obtain ⟨hm2len, -⟩ := hma3
    rw [mem_repEnds] at hrep
    obtain ⟨k, hk0, hk1, hk2, hk3⟩ := hrep
    rw [le_clsRun_drop_iff (by omega)] at hk2
    obtain ⟨hkl, hall⟩ := hk2
    have hklen : k = s.length := by omega
    subst hklen
    refine ⟨by omega, fun h hh => ?_, ?_⟩
    · exact hk3 h hh
    · rw [← forall_getD_iff]
      intro i hi
      simpa using hall i hi
  · rintro ⟨hlo, hhi, hall⟩
    refine ⟨0, Nat.zero_le _, ?_⟩
    apply List.ne_nil_of_mem (a := ((s.length, []) : Nat × Caps))
    rw [mem_ends_cat]
    refine ⟨0, [], [], by rw [mem_ends_bol]; exact ⟨rfl, rfl⟩, ?_, rfl⟩
    rw [mem_ends_cat]
    refine ⟨s.length, [], [], ?_, ?_, rfl⟩
    · rw [mem_ends_rep]
      refine ⟨?_, rfl⟩
      rw [mem_repEnds]
      refine ⟨s.length, by omega, hlo, ?_, hhi⟩
      rw [le_clsRun_drop_iff (Nat.zero_le _)]
      refine ⟨by omega, fun i hi => ?_⟩
      rw [← forall_getD_iff] at hall
      simpa using hall i hi
    · rw [mem_ends_cat]
      refine ⟨s.length, [], [], by rw [mem_ends_eol]; exact ⟨rfl, rfl⟩, ?_, rfl⟩
      rw [mem_ends_eps]

/-- The generic-token charset exactly as the claim writes it,
`[A-Za-z0-9!@#$%^&*()_+=-]`, with a literal hyphen. -/
def claimTokenCode (c : Nat) : Bool :=
  isAlnumCode c || c == 33 || c == 64 || c == 35 || c == 36 || c == 37 ||
    c == 94 || c == 38 || c == 42 || c == 40 || c == 41 || c == 95 ||
    c == 43 || c == 61 || c == 45

def claimTokenShapeB (s : List Nat) : Bool :=
  4 ≤ s.length && s.length ≤ 50 && s.all claimTokenCode

/-- The source's actual token charset (with the `+-=` range). -/
def rangeTokenShapeB (s : List Nat) : Bool :=
  4 ≤ s.length && s.length ≤ 50 && s.all credClass1

def emailShapeB (s : List Nat) : Bool :=
  (List.range s.length).any fun i =>
    (List.range s.length).any fun j =>
      1 ≤ i && i + 1 < j && j + 3 ≤ s.length &&
        s.getD i 0 == 64 && s.getD j 0 == 46 &&
        allIdx emailLocalCode s 0 i && allIdx emailDomCode s (i + 1) j &&
        allIdx isAlphaCode s (j + 1) s.length

def ipv4ShapeB (s : List Nat) : Bool :=
  (List.range s.length).any fun i =>
    (List.range s.length).any fun j =>
      (List.range s.length).any fun k =>
        1 ≤ i && i + 1 < j && j + 1 < k && k + 1 < s.length &&
          s.getD i 0 == 46 && s.getD j 0 == 46 && s.getD k 0 == 46 &&
          allIdx isDigitCode s 0 i && allIdx isDigitCode s (i + 1) j &&
          allIdx isDigitCode s (j + 1) k && allIdx isDigitCode s (k + 1) s.length

def longTokenShapeB (s : List Nat) : Bool :=
  20 ≤ s.length && s.length ≤ 60 && s.all isAlnumCode

def identShapeB (s : List Nat) : Bool :=
  4 ≤ s.length && s.length ≤ 21 && isAlphaCode (s.getD 0 0) &&
    allIdx isAlnumCode s 1 s.length

def uriSchemeShapeB (s : List Nat) : Bool :=
  (List.range s.length).any fun k =>
    1 ≤ k && k + 3 ≤ s.length && allIdx isAlphaCode s 0 k &&
      s.getD k 0 == 58 && s.getD (k + 1) 0 == 47 && s.getD (k + 2) 0 == 47

def jdbcShapeB (s : List Nat) : Bool :=
  (List.range s.length).any fun k =>
    6 ≤ k && k + 3 ≤ s.length &&
      s.getD 0 0 == 106 && s.getD 1 0 == 100 && s.getD 2 0 == 98 &&
      s.getD 3 0 == 99 && s.getD 4 0 == 58 &&
      allIdx isWordCode s 5 k &&
      s.getD k 0 == 58 && s.getD (k + 1) 0 == 47 && s.getD (k + 2) 0 == 47

/-- The seven accepted shapes exactly as the claim lists them. -/
def credShapesClaim (s : List Nat) : Bool :=
  claimTokenShapeB s || emailShapeB s || ipv4ShapeB s || longTokenShapeB s ||
    identShapeB s || uriSchemeShapeB s || jdbcShapeB s

/-- The accepted shapes with the token charset the source actually
compiles (the `+-=` range adds `, . / : ; <`). -/
def credShapesAmended (s : List Nat) : Bool :=
  rangeTokenShapeB s || emailShapeB s || ipv4ShapeB s || longTokenShapeB s ||
    identShapeB s || uriSchemeShapeB s || jdbcShapeB s

theorem reMatches_bol_iff {re : RE} {s : List Nat} :
    reMatches (.cat .bol re) s = true ↔ ∃ e c, (e, c) ∈ ends re s 0 := by
  rw [reMatches_iff]
  constructor
  · rintro ⟨st, hst, hne⟩
    obtain ⟨⟨e, c⟩, hec⟩ := List.exists_mem_of_ne_nil _ hne
    rw [mem_ends_cat] at hec
    obtain ⟨m, ca, cb, hma, hmb, -⟩ := hec
    rw [mem_ends_bol] at hma
    obtain ⟨hst0, heq⟩ := hma
    simp only [Prod.mk.injEq] at heq
    obtain ⟨hmst, -⟩ := heq
    subst hst0
    subst hmst
    exact ⟨e, cb, hmb⟩
  · rintro ⟨e, c, hec⟩
    refine ⟨0, Nat.zero_le _,
      List.ne_nil_of_mem (a := ((e, [] ++ c) : Nat × Caps)) ?_⟩
    rw [mem_ends_cat]
    exact ⟨0, [], c, by rw [mem_ends_bol]; exact ⟨rfl, rfl⟩, hec, rfl⟩

theorem pattern1_iff (s : List Nat) :
    reMatches (cats [.bol, .rep credClass1 4 (some 50), .eol]) s = true
      ↔ rangeTokenShapeB s = true := by
  rw [repFull_match_iff]
  unfold rangeTokenShapeB
  simp only [Bool.and_eq_true, decide_eq_true_eq, List.all_eq_true]
  constructor
  · rintro ⟨h1, h2, h3⟩
    exact ⟨⟨h1, h2 50 rfl⟩, h3⟩
  · rintro ⟨⟨h1, h2⟩, h3⟩
    exact ⟨h1, fun h hh => (Option.some.inj hh) ▸ h2, h3⟩

theorem pattern4_iff (s : List Nat) :
    reMatches (cats [.bol, .rep isAlnumCode 20 (some 60), .eol]) s = true
      ↔ longTokenShapeB s = true := by
  rw [repFull_match_iff]
  unfold longTokenShapeB
  simp only [Bool.and_eq_true, decide_eq_true_eq, List.all_eq_true]
  constructor
  · rintro ⟨h1, h2, h3⟩
    exact ⟨⟨h1, h2 60 rfl⟩, h3⟩
  · rintro ⟨⟨h1, h2⟩, h3⟩
    exact ⟨h1, fun h hh => (Option.some.inj hh) ▸ h2, h3⟩

theorem pattern5_iff (s : List Nat) :
    reMatches (cats [.bol, .cls isAlphaCode, .rep isAlnumCode 3 (some 20), .eol]) s
        = true ↔ identShapeB s = true := by
  rw [show cats [.bol, .cls isAlphaCode, .rep isAlnumCode 3 (some 20), .eol]
      = .cat .bol (.cat (.cls isAlphaCode)
          (.cat (.rep isAlnumCode 3 (some 20)) (.cat .eol .eps))) from rfl]
  rw [reMatches_bol_iff]
  unfold identShapeB
  simp only [Bool.and_eq_true, decide_eq_true_eq, allIdx_iff]
  constructor
  · rintro ⟨e, c, hec⟩
    rw [mem_ends_cat] at hec
    obtain ⟨m, ca, cb, hma, hmb, -⟩ := hec
    rw [mem_ends_cls] at hma
    obtain ⟨hlen0, halpha, heq⟩ := hma
    simp only [Prod.mk.injEq] at heq
    obtain ⟨rfl, -⟩ := heq
    rw [mem_ends_cat] at hmb
    obtain ⟨m2, ca2, cb2, hma2, hmb2, -⟩ := hmb
    rw [mem_ends_rep] at hma2
    obtain ⟨hrep, -⟩ := hma2
    rw [mem_repEnds] at hrep
    obtain ⟨k, rfl, hk1, hk2, hk3⟩ := hrep
    rw [le_clsRun_drop_iff (by omega)] at hk2
    obtain ⟨hkl, hall⟩ := hk2
    rw [mem_ends_cat] at hmb2
    obtain ⟨m3, ca3, cb3, hma3, -, -⟩ := hmb2
    rw [mem_ends_eol] at hma3
    obtain ⟨hm3, -⟩ := hma3
    have hk20 := hk3 20 rfl
    refine ⟨⟨⟨by omega, by omega⟩, halpha⟩, fun i h1i hilen => ?_⟩
    have := hall (i - 1) (by omega)
    rwa [show 0 + 1 + (i - 1) = i by omega] at this
  · rintro ⟨⟨⟨h4, h21⟩, halpha⟩, hall⟩
    refine ⟨s.length, [], ?_⟩
    rw [mem_ends_cat]
    refine ⟨1, [], [], ?_, ?_, rfl⟩
    · rw [mem_ends_cls]
      exact ⟨by omega, halpha, rfl⟩
    · rw [mem_ends_cat]
      refine ⟨s.length, [], [], ?_, ?_, rfl⟩
      · rw [mem_ends_rep]
        refine ⟨?_, rfl⟩
        rw [mem_repEnds]
        refine ⟨s.length - 1, by omega, by omega, ?_,
          fun h hh => (Option.some.inj hh) ▸ (by omega)⟩
        rw [le_clsRun_drop_iff (by omega)]
        refine ⟨by omega, fun i hi => ?_⟩
        exact hall (1 + i) (by omega) (by omega)
      · rw [mem_ends_cat]
        refine ⟨s.length, [], [], by rw [mem_ends_eol]; exact ⟨rfl, rfl⟩, ?_, rfl⟩
        rw [mem_ends_eps]

theorem pattern6_iff (s : List Nat) :
    reMatches (cats [.bol, .rep isAlphaCode 1 none, lits (strCodes "://")]) s = true
      ↔ uriSchemeShapeB s = true := by
  rw [show cats [.bol, .rep isAlphaCode 1 none, lits (strCodes "://")]
      = .cat .bol (.cat (.rep isAlphaCode 1 none)
          (.cat (lits (strCodes "://")) .eps)) from rfl]
  rw [reMatches_bol_iff]
  unfold uriSchemeShapeB
  rw [show strCodes "://" = [58, 47, 47] from rfl]
  simp only [List.any_eq_true, List.mem_range, Bool.and_eq_true, decide_eq_true_eq,
    beq_iff_eq, allIdx_iff, and_assoc]
  constructor
  · rintro ⟨e, c, hec⟩
    rw [mem_ends_cat] at hec
    obtain ⟨m, ca, cb, hma, hmb, -⟩ := hec
    rw [mem_ends_rep] at hma
    obtain ⟨hrep, -⟩ := hma
    rw [mem_repEnds] at hrep
    obtain ⟨k, rfl, hk1, hk2, -⟩ := hrep
    rw [le_clsRun_drop_iff (Nat.zero_le _)] at hk2
    obtain ⟨hkl, hall⟩ := hk2
    rw [mem_ends_cat] at hmb
    obtain ⟨m2, ca2, cb2, hma2, -, -⟩ := hmb
    rw [mem_ends_lits (by omega)] at hma2
    obtain ⟨-, -, hlen, hchars⟩ := hma2
    simp only [List.length_cons, List.length_nil] at hlen hchars
    have h0 := hchars 0 (by omega)
    have h1 := hchars 1 (by omega)
    have h2 := hchars 2 (by omega)
    simp only [List.getD_cons_zero, List.getD_cons_succ] at h0 h1 h2
    refine ⟨k, by omega, by omega, by omega, fun i h0i hik => ?_, ?_, ?_, ?_⟩
    · have hx := hall i hik
      simpa using hx
    · simpa using h0
    · have hx : 0 + k + 1 = k + 1 := by omega
      rwa [hx] at h1
    · have hx : 0 + k + 2 = k + 2 := by omega
      rwa [hx] at h2
  · rintro ⟨k, hklen, hk1, hk3, hall, h58, h47a, h47b⟩
    refine ⟨k + 3, [], ?_⟩
    rw [mem_ends_cat]
    refine ⟨k, [], [], ?_, ?_, rfl⟩
    · rw [mem_ends_rep]
      refine ⟨?_, rfl⟩
      rw [mem_repEnds]
      refine ⟨k, by omega, hk1, ?_, by simp⟩
      rw [le_clsRun_drop_iff (Nat.zero_le _)]
      exact ⟨by omega, fun i hi => by simpa using hall i (by omega) hi⟩
    · rw [mem_ends_cat]
      refine ⟨k + 3, [], [], ?_, by rw [mem_ends_eps], rfl⟩
      rw [mem_ends_lits (by omega)]
      refine ⟨by simp, rfl, by simp; omega, ?_⟩
      intro i hi
      simp only [List.length_cons, List.length_nil] at hi
      interval_cases i <;>
        simp only [List.getD_cons_zero, List.getD_cons_succ] <;>
        first
          | exact h58
          | exact h47a
          | exact h47b

theorem pattern7_iff (s : List Nat) :
    reMatches (cats [.bol, lits (strCodes "jdbc:"), .rep isWordCode 1 none,
        lits (strCodes "://")]) s = true
      ↔ jdbcShapeB s = true := by
  rw [show cats [.bol, lits (strCodes "jdbc:"), .rep isWordCode 1 none,
        lits (strCodes "://")]
      = .cat .bol (.cat (lits (strCodes "jdbc:"))
          (.cat (.rep isWordCode 1 none) (.cat (lits (strCodes "://")) .eps)))
      from rfl]
  rw [reMatches_bol_iff]
  unfold jdbcShapeB
  rw [show strCodes "://" = [58, 47, 47] from rfl,
    show strCodes "jdbc:" = [106, 100, 98, 99, 58] from rfl]
  simp only [List.any_eq_true, List.mem_range, Bool.and_eq_true, decide_eq_true_eq,
    beq_iff_eq, allIdx_iff, and_assoc]
  constructor
  · rintro ⟨e, c, hec⟩
    rw [mem_ends_cat] at hec
    obtain ⟨m, ca, cb, hma, hmb, -⟩ := hec
    rw [mem_ends_lits (Nat.zero_le _)] at hma
    obtain ⟨hm5, -, hlen5, hpre⟩ := hma
    simp only [List.length_cons, List.length_nil] at hm5 hlen5 hpre
    have hm5x : m = 5 := by omega
    subst hm5x
    rw [mem_ends_cat] at hmb
    obtain ⟨m2, ca2, cb2, hma2, hmb2, -⟩ := hmb
    rw [mem_ends_rep] at hma2
    obtain ⟨hrep, -⟩ := hma2
    rw [mem_repEnds] at hrep
    obtain ⟨k2, rfl, hk21, hk22, -⟩ := hrep
    rw [le_clsRun_drop_iff (by omega)] at hk22
    obtain ⟨hkl, hall⟩ := hk22
    rw [mem_ends_cat] at hmb2
    obtain ⟨m3, ca3, cb3, hma3, -, -⟩ := hmb2
    rw [mem_ends_lits (by omega)] at hma3
    obtain ⟨-, -, hlen3, hchars⟩ := hma3
    simp only [List.length_cons, List.length_nil] at hlen3 hchars
    have hp0 := hpre 0 (by omega)
    have hp1 := hpre 1 (by omega)
    have hp2 := hpre 2 (by omega)
    have hp3 := hpre 3 (by omega)
    have hp4 := hpre 4 (by omega)
    simp only [List.getD_cons_zero, List.getD_cons_succ] at hp0 hp1 hp2 hp3 hp4
    have h0 := hchars 0 (by omega)
    have h1 := hchars 1 (by omega)
    have h2 := hchars 2 (by omega)
    simp only [List.getD_cons_zero, List.getD_cons_succ] at h0 h1 h2
    refine ⟨5 + k2, by omega, by omega, by omega,
      by simpa using hp0, by simpa using hp1, by simpa using hp2,
      by simpa using hp3, by simpa using hp4, fun i h5i hik => ?_, ?_, ?_, ?_⟩
    · have hx := hall (i - 5) (by omega)
      rwa [show 5 + (i - 5) = i by omega] at hx
    · have hx : 5 + k2 + 0 = 5 + k2 := by omega
      rw [hx] at h0
      exact h0
    · have hx : 5 + k2 + 1 = 5 + k2 + 1 := rfl
      exact h1
    · exact h2
  · rintro ⟨k, hklen, hk6, hk3, hj, hd, hb, hc, hcolon, hword, h58, h47a, h47b⟩
    refine ⟨k + 3, [], ?_⟩
    rw [mem_ends_cat]
    refine ⟨5, [], [], ?_, ?_, rfl⟩
    · rw [mem_ends_lits (Nat.zero_le _)]
      refine ⟨by simp, rfl, by simp; omega, ?_⟩
      intro i hi
      simp only [List.length_cons, List.length_nil] at hi
      interval_cases i <;>
        simp only [List.getD_cons_zero, List.getD_cons_succ, Nat.zero_add] <;>
        first
          | exact hj
          | exact hd
          | exact hb
          | exact hc
          | exact hcolon
    · rw [mem_ends_cat]
      refine ⟨k, [], [], ?_, ?_, rfl⟩
      · rw [mem_ends_rep]
        refine ⟨?_, rfl⟩
        rw [mem_repEnds]
        refine ⟨k - 5, by omega, by omega, ?_, by simp⟩
        rw [le_clsRun_drop_iff (by omega)]
        refine ⟨by omega, fun i hi => ?_⟩
        have hx := hword (5 + i) (by omega) (by omega)
        simpa using hx
      · rw [mem_ends_cat]
        refine ⟨k + 3, [], [], ?_, by rw [mem_ends_eps], rfl⟩
        rw [mem_ends_lits (by omega)]
        refine ⟨by simp, rfl, by simp; omega, ?_⟩
        intro i hi
        simp only [List.length_cons, List.length_nil] at hi
        interval_cases i <;>
          simp only [List.getD_cons_zero, List.getD_cons_succ] <;>
          first
            | exact h58
            | exact h47a
            | exact h47b

theorem pattern2_iff (s : List Nat) :
    reMatches (cats [.bol, .rep emailLocalCode 1 none, litc 64,
        .rep emailDomCode 1 none, litc 46, .rep isAlphaCode 2 none, .eol]) s = true
      ↔ emailShapeB s = true := by
  rw [show cats [.bol, .rep emailLocalCode 1 none, litc 64,
        .rep emailDomCode 1 none, litc 46, .rep isAlphaCode 2 none, .eol]
      = .cat .bol (.cat (.rep emailLocalCode 1 none) (.cat (litc 64)
          (.cat (.rep emailDomCode 1 none) (.cat (litc 46)
            (.cat (.rep isAlphaCode 2 none) (.cat .eol .eps)))))) from rfl]
  rw [reMatches_bol_iff]
  unfold emailShapeB
  simp only [List.any_eq_true, List.mem_range, Bool.and_eq_true, decide_eq_true_eq,
    beq_iff_eq, allIdx_iff, and_assoc]
  constructor
  · rintro ⟨e, c, hec⟩
    rw [mem_ends_cat] at hec
    obtain ⟨m1, ca1, cb1, hma1, hmb1, -⟩ := hec
    rw [mem_ends_rep] at hma1
    obtain ⟨hrep1, -⟩ := hma1
    rw [mem_repEnds] at hrep1
    obtain ⟨k1, rfl, hk11, hk12, -⟩ := hrep1
    rw [le_clsRun_drop_iff (Nat.zero_le _)] at hk12
    obtain ⟨hkl1, hall1⟩ := hk12
    rw [mem_ends_cat] at hmb1
    obtain ⟨m2, ca2, cb2, hma2, hmb2, -⟩ := hmb1
    rw [mem_ends_litc] at hma2
    obtain ⟨hlt2, hat, rfl, -⟩ := hma2
    rw [mem_ends_cat] at hmb2
    obtain ⟨m3, ca3, cb3, hma3, hmb3, -⟩ := hmb2
    rw [mem_ends_rep] at hma3
    obtain ⟨hrep3, -⟩ := hma3
    rw [mem_repEnds] at hrep3
    obtain ⟨k2, rfl, hk21, hk22, -⟩ := hrep3
    rw [le_clsRun_drop_iff (by omega)] at hk22
    obtain ⟨hkl2, hall2⟩ := hk22
    rw [mem_ends_cat] at hmb3
    obtain ⟨m4, ca4, cb4, hma4, hmb4, -⟩ := hmb3
    rw [mem_ends_litc] at hma4
    obtain ⟨hlt4, hdot, rfl, -⟩ := hma4
    rw [mem_ends_cat] at hmb4
    obtain ⟨m5, ca5, cb5, hma5, hmb5, -⟩ := hmb4
    rw [mem_ends_rep] at hma5
    obtain ⟨hrep5, -⟩ := hma5
    rw [mem_repEnds] at hrep5
    obtain ⟨k3, rfl, hk31, hk32, -⟩ := hrep5
    rw [le_clsRun_drop_iff (by omega)] at hk32
    obtain ⟨hkl3, hall3⟩ := hk32
    rw [mem_ends_cat] at hmb5
    obtain ⟨m6, ca6, cb6, hma6, -, -⟩ := hmb5
    rw [mem_ends_eol] at hma6
    obtain ⟨hm6, -⟩ := hma6
    refine ⟨0 + k1, by omega, 0 + k1 + 1 + k2, by omega, by omega, by omega,
      by omega, hat, hdot, fun t h0t hti => ?_, fun t hit htj => ?_,
      fun t hjt htl => ?_⟩
    · have hx := hall1 t (by omega)
      rwa [show 0 + t = t by omega] at hx
    · have hx := hall2 (t - (0 + k1 + 1)) (by omega)
      rwa [show 0 + k1 + 1 + (t - (0 + k1 + 1)) = t by omega] at hx
    · have hx := hall3 (t - (0 + k1 + 1 + k2 + 1)) (by omega)
      rwa [show 0 + k1 + 1 + k2 + 1 + (t - (0 + k1 + 1 + k2 + 1)) = t by omega] at hx
  · rintro ⟨i, hilen, j, hjlen, h1i, hij, hj3, hat, hdot, hloc, hdom, halp⟩
    refine ⟨s.length, [], ?_⟩
    rw [mem_ends_cat]
    refine ⟨i, [], [], ?_, ?_, rfl⟩
    · rw [mem_ends_rep]
      refine ⟨?_, rfl⟩
      rw [mem_repEnds]
      refine ⟨i, by omega, by omega, ?_, by simp⟩
      rw [le_clsRun_drop_iff (Nat.zero_le _)]
      exact ⟨by omega, fun t ht => by simpa using hloc t (by omega) ht⟩
    · rw [mem_ends_cat]
      refine ⟨i + 1, [], [], ?_, ?_, rfl⟩
      · rw [mem_ends_litc]
        exact ⟨by omega, hat, rfl, rfl⟩
      · rw [mem_ends_cat]
        refine ⟨j, [], [], ?_, ?_, rfl⟩
        · rw [mem_ends_rep]
          refine ⟨?_, rfl⟩
          rw [mem_repEnds]
          refine ⟨j - (i + 1), by omega, by omega, ?_, by simp⟩
          rw [le_clsRun_drop_iff (by omega)]
          refine ⟨by omega, fun t ht => ?_⟩
          have hx := hdom (i + 1 + t) (by omega) (by omega)
          simpa using hx
        · rw [mem_ends_cat]
          refine ⟨j + 1, [], [], ?_, ?_, rfl⟩
          · rw [mem_ends_litc]
            exact ⟨by omega, hdot, rfl, rfl⟩
          · rw [mem_ends_cat]
            refine ⟨s.length, [], [], ?_, ?_, rfl⟩
            · rw [mem_ends_rep]
              refine ⟨?_, rfl⟩
              rw [mem_repEnds]
              refine ⟨s.length - (j + 1), by omega, by omega, ?_, by simp⟩
              rw [le_clsRun_drop_iff (by omega)]
              refine ⟨by omega, fun t ht => ?_⟩
              have hx := halp (j + 1 + t) (by omega) (by omega)
              simpa using hx
            · rw [mem_ends_cat]
              refine ⟨s.length, [], [], by rw [mem_ends_eol]; exact ⟨rfl, rfl⟩,
                by rw [mem_ends_eps], rfl⟩

theorem pattern3_iff (s : List Nat) :
    reMatches (cats [.bol, .rep isDigitCode 1 none, litc 46,
        .rep isDigitCode 1 none, litc 46, .rep isDigitCode 1 none, litc 46,
        .rep isDigitCode 1 none, .eol]) s = true
      ↔ ipv4ShapeB s = true := by
  rw [show cats [.bol, .rep isDigitCode 1 none, litc 46,
        .rep isDigitCode 1 none, litc 46, .rep isDigitCode 1 none, litc 46,
        .rep isDigitCode 1 none, .eol]
      = .cat .bol (.cat (.rep isDigitCode 1 none) (.cat (litc 46)
          (.cat (.rep isDigitCode 1 none) (.cat (litc 46)
            (.cat (.rep isDigitCode 1 none) (.cat (litc 46)
              (.cat (.rep isDigitCode 1 none) (.cat .eol .eps)))))))) from rfl]
  rw [reMatches_bol_iff]
  unfold ipv4ShapeB
  simp only [List.any_eq_true, List.mem_range, Bool.and_eq_true, decide_eq_true_eq,
    beq_iff_eq, allIdx_iff, and_assoc]
  constructor
  · rintro ⟨e, c, hec⟩
    rw [mem_ends_cat] at hec
    obtain ⟨m1, ca1, cb1, hma1, hmb1, -⟩ := hec
    rw [mem_ends_rep] at hma1
    obtain ⟨hrep1, -⟩ := hma1
    rw [mem_repEnds] at hrep1
    obtain ⟨k1, rfl, hk11, hk12, -⟩ := hrep1
    rw [le_clsRun_drop_iff (Nat.zero_le _)] at hk12
    obtain ⟨hkl1, hall1⟩ := hk12
    rw [mem_ends_cat] at hmb1
    obtain ⟨m2, ca2, cb2, hma2, hmb2, -⟩ := hmb1
    rw [mem_ends_litc] at hma2
    obtain ⟨hlt2, hd1, rfl, -⟩ := hma2
    rw [mem_ends_cat] at hmb2
    obtain ⟨m3, ca3, cb3, hma3, hmb3, -⟩ := hmb2
    rw [mem_ends_rep] at hma3
    obtain ⟨hrep3, -⟩ := hma3
    rw [mem_repEnds] at hrep3
    obtain ⟨k2, rfl, hk21, hk22, -⟩ := hrep3
    rw [le_clsRun_drop_iff (by omega)] at hk22
    obtain ⟨hkl2, hall2⟩ := hk22
    rw [mem_ends_cat] at hmb3
    obtain ⟨m4, ca4, cb4, hma4, hmb4, -⟩ := hmb3
    rw [mem_ends_litc] at hma4
    obtain ⟨hlt4, hd2, rfl, -⟩ := hma4
    rw [mem_ends_cat] at hmb4
    obtain ⟨m5, ca5, cb5, hma5, hmb5, -⟩ := hmb4
    rw [mem_ends_rep] at hma5
    obtain ⟨hrep5, -⟩ := hma5
    rw [mem_repEnds] at hrep5
    obtain ⟨k3, rfl, hk31, hk32, -⟩ := hrep5
    rw [le_clsRun_drop_iff (by omega)] at hk32
    obtain ⟨hkl3, hall3⟩ := hk32
    rw [mem_ends_cat] at hmb5
    obtain ⟨m6, ca6, cb6, hma6, hmb6, -⟩ := hmb5
    rw [mem_ends_litc] at hma6
    obtain ⟨hlt6, hd3, rfl, -⟩ := hma6
    rw [mem_ends_cat] at hmb6
    obtain ⟨m7, ca7, cb7, hma7, hmb7, -⟩ := hmb6
    rw [mem_ends_rep] at hma7
    obtain ⟨hrep7, -⟩ := hma7
    rw [mem_repEnds] at hrep7
    obtain ⟨k4, rfl, hk41, hk42, -⟩ := hrep7
    rw [le_clsRun_drop_iff (by omega)] at hk42
    obtain ⟨hkl4, hall4⟩ := hk42
    rw [mem_ends_cat] at hmb7
    obtain ⟨m8, ca8, cb8, hma8, -, -⟩ := hmb7
    rw [mem_ends_eol] at hma8
    obtain ⟨hm8, -⟩ := hma8
    refine ⟨0 + k1, by omega, 0 + k1 + 1 + k2, by omega,
      0 + k1 + 1 + k2 + 1 + k3, by omega, by omega, by omega, by omega, by omega,
      hd1, hd2, hd3, fun t h0t hti => ?_, fun t hit htj => ?_,
      fun t hjt htk => ?_, fun t hkt htl => ?_⟩
    · have hx := hall1 t (by omega)
      rwa [show 0 + t = t by omega] at hx
    · have hx := hall2 (t - (0 + k1 + 1)) (by omega)
      rwa [show 0 + k1 + 1 + (t - (0 + k1 + 1)) = t by omega] at hx
    · have hx := hall3 (t - (0 + k1 + 1 + k2 + 1)) (by omega)
      rwa [show 0 + k1 + 1 + k2 + 1 + (t - (0 + k1 + 1 + k2 + 1)) = t by omega] at hx
    · have hx := hall4 (t - (0 + k1 + 1 + k2 + 1 + k3 + 1)) (by omega)
      rwa [show 0 + k1 + 1 + k2 + 1 + k3 + 1 +
        (t - (0 + k1 + 1 + k2 + 1 + k3 + 1)) = t by omega] at hx
  · rintro ⟨i, hilen, j, hjlen, k, hklen, h1i, hij, hjk, hkl, hd1, hd2, hd3,
      hs1, hs2, hs3, hs4⟩
    refine ⟨s.length, [], ?_⟩
    rw [mem_ends_cat]
    refine ⟨i, [], [], ?_, ?_, rfl⟩
    · rw [mem_ends_rep]
      refine ⟨?_, rfl⟩
      rw [mem_repEnds]
      refine ⟨i, by omega, by omega, ?_, by simp⟩
      rw [le_clsRun_drop_iff (Nat.zero_le _)]
      exact ⟨by omega, fun t ht => by simpa using hs1 t (by omega) ht⟩
    · rw [mem_ends_cat]
      refine ⟨i + 1, [], [], ?_, ?_, rfl⟩
      · rw [mem_ends_litc]
        exact ⟨by omega, hd1, rfl, rfl⟩
      · rw [mem_ends_cat]
        refine ⟨j, [], [], ?_, ?_, rfl⟩
        · rw [mem_ends_rep]
          refine ⟨?_, rfl⟩
          rw [mem_repEnds]
          refine ⟨j - (i + 1), by omega, by omega, ?_, by simp⟩
          rw [le_clsRun_drop_iff (by omega)]
          refine ⟨by omega, fun t ht => ?_⟩
          have hx := hs2 (i + 1 + t) (by omega) (by omega)
          simpa using hx
        · rw [mem_ends_cat]
          refine ⟨j + 1, [], [], ?_, ?_, rfl⟩
          · rw [mem_ends_litc]
            exact ⟨by omega, hd2, rfl, rfl⟩
          · rw [mem_ends_cat]
            refine ⟨k, [], [], ?_, ?_, rfl⟩
            · rw [mem_ends_rep]
              refine ⟨?_, rfl⟩
              rw [mem_repEnds]
              refine ⟨k - (j + 1), by omega, by omega, ?_, by simp⟩
              rw [le_clsRun_drop_iff (by omega)]
              refine ⟨by omega, fun t ht => ?_⟩
              have hx := hs3 (j + 1 + t) (by omega) (by omega)
              simpa using hx
            · rw [mem_ends_cat]
              refine ⟨k + 1, [], [], ?_, ?_, rfl⟩
              · rw [mem_ends_litc]
                exact ⟨by omega, hd3, rfl, rfl⟩
              · rw [mem_ends_cat]
                refine ⟨s.length, [], [], ?_, ?_, rfl⟩
                · rw [mem_ends_rep]
                  refine ⟨?_, rfl⟩
                  rw [mem_repEnds]
                  refine ⟨s.length - (k + 1), by omega, by omega, ?_, by simp⟩
                  rw [le_clsRun_drop_iff (by omega)]
                  refine ⟨by omega, fun t ht => ?_⟩
                  have hx := hs4 (k + 1 + t) (by omega) (by omega)
                  simpa using hx
                · rw [mem_ends_cat]
                  refine ⟨s.length, [], [],
                    by rw [mem_ends_eol]; exact ⟨rfl, rfl⟩,
                    by rw [mem_ends_eps], rfl⟩


/-- The seven source regexes, in shape-level terms. -/
theorem hasCredentialLikePattern_iff (s : List Nat) :
    hasCredentialLikePattern s = true ↔ credShapesAmended s = true := by
  unfold hasCredentialLikePattern validPatterns
  simp only [List.any_cons, List.any_nil, Bool.or_eq_true, Bool.false_eq_true,
    or_false]
  rw [pattern1_iff, pattern2_iff, pattern3_iff, pattern4_iff, pattern5_iff,
    pattern6_iff, pattern7_iff]
  unfold credShapesAmended
  simp only [Bool.or_eq_true]
  tauto

/-- C5 (amended).  `isValidCredential` accepts exactly the strings of
length at least 3, free of denylisted substrings, that fit one of the
seven shapes — with the generic-token charset of the source,
`[a-zA-Z0-9!@#$%^&*()_+-=]`, in which `+-=` is a character range also
allowing `, . / : ; <`. -/
theorem isValidCredential_characterization (s : List Nat) :
    isValidCredential s = true ↔
      3 ≤ s.length ∧ (∀ e ∈ excludedTokens, listContains s e = false) ∧
        credShapesAmended s = true := by
  unfold isValidCredential
  by_cases hl : s.length < 3
  · simp only [hl, if_true, Bool.false_eq_true, false_iff]
    rintro ⟨h, -⟩
    omega
  · rw [if_neg hl]
    by_cases hex : excludedTokens.any (fun e => listContains s e) = true
    · rw [if_pos hex]
      simp only [Bool.false_eq_true, false_iff]
      rintro ⟨-, hall, -⟩
      rw [List.any_eq_true] at hex
      obtain ⟨e, he, hce⟩ := hex
      rw [hall e he] at hce
      exact absurd hce (by simp)
    · rw [if_neg hex]
      rw [hasCredentialLikePattern_iff]
      have hall : ∀ e ∈ excludedTokens, listContains s e = false := by
        intro e he
        by_contra hc
        exact hex (List.any_eq_true.2 ⟨e, he, by simpa using hc⟩)
      constructor
      · intro h
        exact ⟨by omega, hall, h⟩
      · rintro ⟨-, -, h⟩
        exact h

/-- Counterexample to C5 as stated: `ab,cd` passes the length and
denylist filters and is accepted by the source (the comma lies in the
`+-=` range of `[a-zA-Z0-9!@#$%^&*()_+-=]`), yet it matches none of
the seven shapes as the claim lists them (its charset has a literal
hyphen and no comma). -/
theorem isValidCredential_claim_counterexample :
    isValidCredential (strCodes "ab,cd") = true ∧
      3 ≤ (strCodes "ab,cd").length ∧
      (∀ e ∈ excludedTokens, listContains (strCodes "ab,cd") e = false) ∧
      credShapesClaim (strCodes "ab,cd") = false := by
  decide

/-! ## C7: the likely-garbage classifier -/

/-- C7's predicate as the claim states it: length at least 10, and
either the fraction of characters outside `[32,126] ∪ {tab, LF, CR}`
exceeds 0.3, or the string contains a run of 4 identical consecutive
characters starting past position 10. -/
def likelyGarbageClaim (s : List Nat) : Bool :=
  10 ≤ s.length &&
    (3 * s.length <
        10 * s.countP (fun c => !((32 ≤ c && c ≤ 126) || c == 9 || c == 10 || c == 13))
      || (List.range s.length).any fun i =>
          10 < i && i + 3 < s.length &&
            s.getD i 0 == s.getD (i + 1) 0 && s.getD i 0 == s.getD (i + 2) 0 &&
            s.getD i 0 == s.getD (i + 3) 0)

/-- Counterexample to C7 as stated: `abcdef` followed by four carriage
returns.  The source counts CR as a special character (only space, tab
and LF are exempt), so it classifies the string as garbage, while the
claim's predicate (which exempts CR and sees no late run) does not. -/
theorem isLikelyGarbage_claim_counterexample :
    isLikelyGarbage (strCodes "abcdef" ++ [13, 13, 13, 13]) = true ∧
      likelyGarbageClaim (strCodes "abcdef" ++ [13, 13, 13, 13]) = false := by
  decide

/-- C7 (amended).  `isLikelyGarbage` holds exactly when the length is
at least 10 and either the fraction of characters outside
`[32,126] ∪ {tab, LF}` exceeds 0.3 (CR is *not* exempt), or the length
is at least 20 and some run of 4 identical consecutive characters
starts more than 10 positions before the end (at index `< length-10`,
wherever that is in the string). -/
theorem isLikelyGarbage_characterization (s : List Nat) :
    isLikelyGarbage s = true ↔
      10 ≤ s.length ∧
        (10 * s.countP (fun c => !((32 ≤ c && c ≤ 126) || c == 9 || c == 10))
            > 3 * s.length ∨
          (20 ≤ s.length ∧ ∃ i, i < s.length - 10 ∧
            s.getD (i + 1) 0 = s.getD i 0 ∧ s.getD (i + 2) 0 = s.getD i 0 ∧
            s.getD (i + 3) 0 = s.getD i 0)) := by
  have hcount : s.countP (fun c => !((32 ≤ c && c ≤ 126) || c == 9 || c == 10))
      = specialCharCount s := by
    refine List.countP_congr (fun c _ => ?_)
    have L : (!((32 ≤ c && c ≤ 126) || c == 9 || c == 10)) = true ↔
        ¬((32 ≤ c ∧ c ≤ 126) ∨ c = 9 ∨ c = 10) := by
      simp
      omega
    have R : ((c < 32 || c > 126) && c != 32 && c != 9 && c != 10) = true ↔
        ((c < 32 ∨ 126 < c) ∧ c ≠ 32 ∧ c ≠ 9 ∧ c ≠ 10) := by
      simp [and_assoc]
    rw [L, R]
    omega
  have hrep : hasRepeatingPattern s = true ↔
      20 ≤ s.length ∧ ∃ i, i < s.length - 10 ∧
        s.getD (i + 1) 0 = s.getD i 0 ∧ s.getD (i + 2) 0 = s.getD i 0 ∧
        s.getD (i + 3) 0 = s.getD i 0 := by
    unfold hasRepeatingPattern
    by_cases hl : s.length < 20
    · simp only [hl, if_true, Bool.false_eq_true, false_iff, not_and]
      intro h
      omega
    · simp only [hl, if_false, List.any_eq_true, List.mem_range]
      constructor
      · rintro ⟨i, hi, hb⟩
        simp only [Bool.and_eq_true, beq_iff_eq] at hb
        exact ⟨by omega, i, hi, hb.1.1.symm, hb.1.2.symm, hb.2.symm⟩
      · rintro ⟨-, i, hi, h1, h2, h3⟩
        refine ⟨i, hi, ?_⟩
        simp only [Bool.and_eq_true, beq_iff_eq]
        exact ⟨⟨h1.symm, h2.symm⟩, h3.symm⟩
  have hmain : isLikelyGarbage s = true ↔
      10 ≤ s.length ∧
        (10 * specialCharCount s > 3 * s.length ∨ hasRepeatingPattern s = true) := by
    unfold isLikelyGarbage
    by_cases hl : s.length < 10
    · simp only [hl, if_true, Bool.false_eq_true, false_iff, not_and]
      intro h
      omega
    · by_cases hf : 10 * specialCharCount s > 3 * s.length
      · simp [hl, hf]
        omega
      · by_cases hr : hasRepeatingPattern s = true
        · simp [hl, hf, hr]
          omega
        · simp [hl, hf, hr]
  rw [hcount, hmain, hrep]

end Findx
